import Mathlib

/- Shallow embedding of the warmup_stats repository: the outlier aggregation
   script (outlier_summaries.py) and the distribution encoder of the LaTeX
   helper module (warmup/latex.py).

   Modelling conventions: Python dicts are insertion-ordered association
   lists; an outlier occurrence is opaque (only the length of an execution's
   occurrence list is ever read), so an execution is the list of its
   occurrences; fallible Python constructs (assert, KeyError, the ValueError
   raised by tuple unpacking) are modelled with Except String carrying the
   message Python would produce; writing the output file is modelled by the
   pipeline returning the document text in the ok case, so an error result
   means that no output file is touched.  Floating-point measurement values
   are modelled as exact rationals. -/

/-- One execution is the ordered list of its outlier occurrences; only the
length of an execution is ever inspected, the occurrences themselves are
opaque to the aggregator. -/
abbrev Execution := List Nat

/-- A Python dict from measurement key to the per-execution outlier lists,
modelled as an insertion-ordered association list. -/
abbrev OutlierMap := List (String × List Execution)

/-- One loaded Krun results file, restricted to the fields the script reads:
window_size, the audit uname line, and the three outlier collections. -/
structure MachineData where
  window_size : Int
  uname : String
  all_outliers : OutlierMap
  common_outliers : OutlierMap
  unique_outliers : OutlierMap
deriving DecidableEq

/-- One category summary: the three accumulator dicts of the script
(benchmarks, vms, variants), each mapping a name to an outlier count. -/
structure Summary where
  benchmarks : List (String × Nat)
  vms : List (String × Nat)
  variants : List (String × Nat)
deriving DecidableEq

/-- The triple (outlier_summary, common_summary, unique_summary) built by
main in outlier_summaries.py. -/
abbrev Summaries := Summary × Summary × Summary

/-- Python dict lookup: first binding of the key in the association list. -/
def alookup {β : Type} : List (String × β) → String → Option β
  | [], _ => none
  | (k1, v) :: rest, k => if k1 = k then some v else alookup rest k

/-- Python membership test (key in dict). -/
def containsName {β : Type} (m : List (String × β)) (k : String) : Bool :=
  (alookup m k).isSome

/-- Overwrite every binding of a key with a new value, keeping positions. -/
def overwriteKey {β : Type} : List (String × β) → String → β → List (String × β)
  | [], _, _ => []
  | (k1, w) :: rest, k, v =>
    if k1 = k then (k1, v) :: overwriteKey rest k v
    else (k1, w) :: overwriteKey rest k v

/-- Python dict assignment d[k] = v: overwrite the binding if the key is
present, otherwise append a new binding (insertion order). -/
def aset {β : Type} (m : List (String × β)) (k : String) (v : β) :
    List (String × β) :=
  if containsName m k then overwriteKey m k v else m ++ [(k, v)]

/-- Python d[k] += d over an integer-valued dict (the key is present in
every reachable state; an absent key is left untouched here, where Python
would raise KeyError on a state the script never builds). -/
def aadd : List (String × Nat) → String → Nat → List (String × Nat)
  | [], _, _ => []
  | (k1, c) :: rest, k, d =>
    if k1 = k then (k1, c + d) :: aadd rest k d
    else (k1, c) :: aadd rest k d

/-- Python dict lookup d[k] that raises KeyError when the key is absent. -/
def lookupE (m : OutlierMap) (k : String) : Except String (List Execution) :=
  match alookup m k with
  | some v => Except.ok v
  | none => Except.error ("KeyError: " ++ k)

/-- Python single-character str.split: splits on every occurrence of the
separator and keeps empty components. -/
def splitChars (sep : Char) : List Char → List (List Char)
  | [] => [[]]
  | c :: cs =>
    if c = sep then [] :: splitChars sep cs
    else
      match splitChars sep cs with
      | [] => [[c]]
      | p :: ps => (c :: p) :: ps

/-- Python key.split(sep) for a single-character separator. -/
def splitOnChar (s : String) (sep : Char) : List String :=
  (splitChars sep s.data).map (fun l => String.mk l)

/-- The unpacking bench, vm, variant = key.split(then the colon) of main;
a component count other than three raises the Python 2.7 ValueError of
tuple unpacking, whose message does not mention the key. -/
def splitKey (key : String) : Except String (String × String × String) :=
  match splitOnChar key ':' with
  | [b, v, w] => Except.ok (b, v, w)
  | parts =>
    if parts.length > 3 then Except.error "too many values to unpack"
    else
      Except.error ("need more than " ++ Nat.repr parts.length ++
        " values to unpack")

/-- The block of main guarded by bench not in outlier_summary:
set the benchmark name to 0 in all three summaries. -/
def insertBench (t : Summaries) (bench : String) : Summaries :=
  if containsName t.1.benchmarks bench then t
  else ({ t.1 with benchmarks := aset t.1.benchmarks bench 0 },
        { t.2.1 with benchmarks := aset t.2.1.benchmarks bench 0 },
        { t.2.2 with benchmarks := aset t.2.2.benchmarks bench 0 })

/-- The block of main guarded by vm not in outlier_summary vms. -/
def insertVm (t : Summaries) (vm : String) : Summaries :=
  if containsName t.1.vms vm then t
  else ({ t.1 with vms := aset t.1.vms vm 0 },
        { t.2.1 with vms := aset t.2.1.vms vm 0 },
        { t.2.2 with vms := aset t.2.2.vms vm 0 })

/-- The block of main guarded by variant not in outlier_summary variants. -/
def insertVariant (t : Summaries) (variant : String) : Summaries :=
  if containsName t.1.variants variant then t
  else ({ t.1 with variants := aset t.1.variants variant 0 },
        { t.2.1 with variants := aset t.2.1.variants variant 0 },
        { t.2.2 with variants := aset t.2.2.variants variant 0 })

/-- The three lazy-insertion blocks of main, in source order. -/
def insertNames (t : Summaries) (bench vm variant : String) : Summaries :=
  insertVariant (insertVm (insertBench t bench) vm) variant

/-- One of the three accumulation loops of main: for every execution, add
its outlier count to the benchmark, vm and variant accumulators of one
summary. -/
def accumulate : Summary → String → String → String → List Execution → Summary
  | s, _, _, _, [] => s
  | s, bench, vm, variant, ol :: rest =>
    accumulate
      ⟨aadd s.benchmarks bench ol.length,
       aadd s.vms vm ol.length,
       aadd s.variants variant ol.length⟩ bench vm variant rest

/-- The body of the inner loop of main for one measurement key: split the
key, lazily insert the names, look up the three execution lists, then either
skip (no executions recorded, or first execution empty) or accumulate all
three collections. -/
def processKey (t : Summaries) (md : MachineData) (key : String) :
    Except String Summaries :=
  match splitKey key with
  | Except.error e => Except.error e
  | Except.ok (bench, vm, variant) =>
    let t1 := insertNames t bench vm variant
    match lookupE md.all_outliers key with
    | Except.error e => Except.error e
    | Except.ok allExecutions =>
      match lookupE md.common_outliers key with
      | Except.error e => Except.error e
      | Except.ok commonExecutions =>
        match lookupE md.unique_outliers key with
        | Except.error e => Except.error e
        | Except.ok uniqueExecutions =>
          match allExecutions with
          | [] => Except.ok t1
          | e0 :: _ =>
            if e0.length = 0 then Except.ok t1
            else
              Except.ok
                (accumulate t1.1 bench vm variant allExecutions,
                 accumulate t1.2.1 bench vm variant commonExecutions,
                 accumulate t1.2.2 bench vm variant uniqueExecutions)

/-- Insertion into a sorted list of strings, ascending. -/
def insertSorted (x : String) : List String → List String
  | [] => [x]
  | y :: ys => if x ≤ y then x :: y :: ys else y :: insertSorted x ys

/-- Python sorted(...) over strings: ascending lexicographic sort. -/
def sortStrings : List String → List String
  | [] => []
  | x :: xs => insertSorted x (sortStrings xs)

/-- The inner loop of main over the sorted keys of one machine. -/
def process_keys (t : Summaries) (md : MachineData) :
    List String → Except String Summaries
  | [] => Except.ok t
  | k :: rest =>
    match processKey t md k with
    | Except.error e => Except.error e
    | Except.ok t1 => process_keys t1 md rest

/-- One iteration of the outer loop of main: all sorted keys of one
machine's all_outliers dict. -/
def processMachine (t : Summaries) (md : MachineData) :
    Except String Summaries :=
  process_keys t md (sortStrings (md.all_outliers.map Prod.fst))

/-- The outer loop of main over the machines. -/
def process_machines (t : Summaries) :
    List (String × MachineData) → Except String Summaries
  | [] => Except.ok t
  | m :: rest =>
    match processMachine t m.2 with
    | Except.error e => Except.error e
    | Except.ok t1 => process_machines t1 rest

/-- A summary whose three dicts are empty, the accumulator start state. -/
def emptySummary : Summary := ⟨[], [], []⟩

/-- The aggregation part of main in outlier_summaries.py: fold every machine
and every sorted key into the three category summaries. -/
def aggregate_summaries (data_dcts : List (String × MachineData)) :
    Except String Summaries :=
  process_machines (emptySummary, emptySummary, emptySummary) data_dcts

/-- The skip test of main on the all_outliers execution list: no executions
recorded, or the first execution is empty. -/
def skipCheck : List Execution → Bool
  | [] => true
  | e0 :: _ => e0.length == 0

/-- The bench component of a measurement key, the first colon-delimited
part. -/
def benchOf (k : String) : String := (splitOnChar k ':').getD 0 ""

/-- The vm component of a measurement key, the second colon-delimited
part. -/
def vmOf (k : String) : String := (splitOnChar k ':').getD 1 ""

/-- The variant component of a measurement key, the third colon-delimited
part. -/
def varOf (k : String) : String := (splitOnChar k ':').getD 2 ""

/-- No count of one accumulator dict was changed: every binding is intact,
except that an absent name can now be bound to zero. -/
def mapPreserved (m m2 : List (String × Nat)) : Prop :=
  ∀ n, alookup m2 n = alookup m n ∨ (alookup m n = none ∧ alookup m2 n = some 0)

/-- No count of any of the nine accumulator dicts of the three summaries was
changed, apart from fresh zero-valued names. -/
def summPreserved (t r : Summaries) : Prop :=
  mapPreserved t.1.benchmarks r.1.benchmarks ∧
  mapPreserved t.1.vms r.1.vms ∧
  mapPreserved t.1.variants r.1.variants ∧
  mapPreserved t.2.1.benchmarks r.2.1.benchmarks ∧
  mapPreserved t.2.1.vms r.2.1.vms ∧
  mapPreserved t.2.1.variants r.2.1.variants ∧
  mapPreserved t.2.2.benchmarks r.2.2.benchmarks ∧
  mapPreserved t.2.2.vms r.2.2.vms ∧
  mapPreserved t.2.2.variants r.2.2.variants

/- ----------------------------------------------------------------- -/
/- Report renderer (write_results_as_latex and its templates).       -/
/- ----------------------------------------------------------------- -/

/-- The private tex escape helper of outlier_summaries.py:
word.replace of an underscore by backslash-underscore, translated to the
character level (a single-character pattern is replaced occurrence by
occurrence, left to right). -/
def tex_escape_chars : List Char → List Char
  | [] => []
  | c :: cs =>
    if c = '_' then '\\' :: '_' :: tex_escape_chars cs
    else c :: tex_escape_chars cs

/-- The private tex escape helper applied to a string label. -/
def tex_escape (word : String) : String := String.mk (tex_escape_chars word.data)

/-- The LATEX HEADER template of outlier_summaries.py, with the window size
already converted by str. -/
def latex_header (window_size : String) : String :=
  "\n\\documentclass[12pt]\x7barticle\x7d\n\\usepackage\x7blongtable\x7d\n" ++
  "\\usepackage\x7bbooktabs\x7d\n" ++
  "\\title\x7bSummaries of outlier counts. Window size: " ++ window_size ++
  "\x7d\n\\begin\x7bdocument\x7d\n\\maketitle\n"

/-- The LATEX SECTION template of outlier_summaries.py. -/
def latex_section (section_heading : String) : String :=
  "\n\\section*\x7b" ++ section_heading ++ "\x7d\n"

/-- The LATEX START TABLE template of outlier_summaries.py. -/
def latex_start_table (col_title : String) : String :=
  "\n\\begin\x7bcenter\x7d\n\\begin\x7blongtable\x7d\x7bl|r\x7d\n\\toprule\n"
  ++ col_title ++ " & Number of outliers \\\\\n\\midrule\n\\endfirsthead\n"
  ++ "\\toprule\n" ++ col_title ++
  " & Number of outliers \\\\\n\\midrule\n\\endhead\n\\midrule\n\\endfoot\n"
  ++ "\\bottomrule\n\\endlastfoot\n"

/-- The LATEX END TABLE template of outlier_summaries.py. -/
def latex_end_table : String := "\n\\end\x7blongtable\x7d\n\\end\x7bcenter\x7d\n"

/-- The LATEX FOOTER template of outlier_summaries.py. -/
def latex_footer : String := "\n\\end\x7bdocument\x7d\n"

/-- One table-row write of write_results_as_latex: the escaped label, the
count, and the row terminator, for every binding of one accumulator dict in
iteration order. -/
def rowsFor (m : List (String × Nat)) : String :=
  String.join (m.map (fun p => tex_escape p.1 ++ " & " ++ Nat.repr p.2 ++ " \\\\ \n"))

/-- The three tables written for one section of the report: by benchmark, by
virtual machine, by language variant. -/
def summary_tables (s : Summary) : String :=
  latex_start_table "Benchmark" ++ rowsFor s.benchmarks ++ latex_end_table ++
  latex_start_table "Virtual machine" ++ rowsFor s.vms ++ latex_end_table ++
  latex_start_table "Language variant" ++ rowsFor s.variants ++ latex_end_table

/-- write_results_as_latex of outlier_summaries.py: the full document text
that the script writes to the output file. -/
def write_results_as_latex (outlier_summary common_summary unique_summary : Summary)
    (window_size : String) : String :=
  latex_header window_size ++
  latex_section "All outliers" ++ summary_tables outlier_summary ++
  latex_section "Common outliers" ++ summary_tables common_summary ++
  latex_section "Unique outliers (only appear in one process execution)" ++
  summary_tables unique_summary ++
  latex_footer

/-- Python str applied to the window size, which is None when no file was
loaded. -/
def strOfWindow : Option Int → String
  | none => "None"
  | some w => Int.repr w

/-- The function main of outlier_summaries.py (renamed, Lean reserves the
name main for entry points): aggregate, then write the document; the ok
value is the text written to the output file, an error means the run
aborted with no write. -/
def script_main (data_dcts : List (String × MachineData)) (window_size : Option Int) :
    Except String String :=
  match aggregate_summaries data_dcts with
  | Except.error e => Except.error e
  | Except.ok (o, c, u) =>
    Except.ok (write_results_as_latex o c u (strOfWindow window_size))

/- ----------------------------------------------------------------- -/
/- Loader (get_data_dictionaries).                                   -/
/- ----------------------------------------------------------------- -/

/-- Machine-name extraction of get_data_dictionaries: the second
whitespace-delimited token of the audit uname line, with a dot-delimited
domain suffix removed; a uname with fewer than two tokens raises the Python
IndexError. -/
def machine_name_of (uname : String) : Except String String :=
  match (splitOnChar uname ' ').get? 1 with
  | none => Except.error "IndexError: list index out of range"
  | some name =>
    if name.data.contains '.' then Except.ok ((splitOnChar name '.').headD name)
    else Except.ok name

/-- The message of the window-size assert in get_data_dictionaries, exactly
as the two concatenated Python string literals produce it. -/
def mismatchMsg : String :=
  "Cannot summarise outliers generated with different window sizes."

/-- The loop of get_data_dictionaries over the already-loaded files: extract
the machine name, store the data under it, and check the window size against
the first file's, failing with the assert message on a mismatch. -/
def load_loop (window_size : Option Int) (dict : List (String × MachineData)) :
    List MachineData → Except String (Option Int × List (String × MachineData))
  | [] => Except.ok (window_size, dict)
  | data :: rest =>
    match machine_name_of data.uname with
    | Except.error e => Except.error e
    | Except.ok name =>
      let dict1 := aset dict name data
      match window_size with
      | none => load_loop (some data.window_size) dict1 rest
      | some w =>
        if w = data.window_size then load_loop (some w) dict1 rest
        else Except.error mismatchMsg

/-- get_data_dictionaries of outlier_summaries.py over the decompressed file
contents (file reading itself is out of scope): returns the shared window
size and the machine-name-keyed dictionary. -/
def get_data_dictionaries (datas : List MachineData) :
    Except String (Option Int × List (String × MachineData)) :=
  load_loop none [] datas

/-- The whole script run: load the files, then aggregate and render; the ok
value is the document text written to the output file, an error is an abort
with no write. -/
def run_pipeline (datas : List MachineData) : Except String String :=
  match get_data_dictionaries datas with
  | Except.error e => Except.error e
  | Except.ok (ws, dcts) => script_main dcts ws

/- ----------------------------------------------------------------- -/
/- Distribution encoder (the histogram helper of warmup/latex.py).   -/
/- ----------------------------------------------------------------- -/

/-- Minimum of a measurement array, as numpy computes it for the histogram
range; measurement values are modelled as exact rationals. -/
def dataMin : List ℚ → ℚ
  | [] => 0
  | [x] => x
  | x :: y :: r => min x (dataMin (y :: r))

/-- Maximum of a measurement array, as numpy computes it for the histogram
range. -/
def dataMax : List ℚ → ℚ
  | [] => 0
  | [x] => x
  | x :: y :: r => max x (dataMax (y :: r))

/-- The histogram range used by numpy.histogram with default range: from the
minimum to the maximum of the data, widened by one half on both sides when
the two coincide (the single-valued degenerate case). -/
def histRange (data : List ℚ) : ℚ × ℚ :=
  let lo := dataMin data
  let hi := dataMax data
  if lo = hi then (lo - 1/2, hi + 1/2) else (lo, hi)

/-- Equal-width binning of numpy.histogram with 10 bins: the bucket of a
value is the floor of its scaled offset from the lower range edge, with the
last bucket closed on the right (values at the upper edge fall into bucket
nine). -/
def bucketIndex (lo hi : ℚ) (v : ℚ) : Nat :=
  min 9 (Int.toNat ⌊(v - lo) * 10 / (hi - lo)⌋)

/-- The ten raw bucket counts of numpy.histogram(data, bins equal 10). -/
def histCounts (data : List ℚ) : List Nat :=
  (List.range 10).map
    (fun i => data.countP (fun v => bucketIndex (histRange data).1 (histRange data).2 v == i))

/-- The normalisation loop of the histogram helper: every raw count divided
by the fsum total of the counts. -/
def normedHist (data : List ℚ) : List ℚ :=
  (histCounts data).map (fun c : Nat => (c : ℚ) / ((histCounts data).sum : ℚ))

/-- The lower bound of the index of the median in the histogram helper:
floor of half the data length. -/
def median_index (data : List ℚ) : Nat := data.length / 2

/-- The cumulative-frequency loop of the histogram helper: walk the buckets
in order, accumulating counts, and stop at the first bucket whose running
total reaches or exceeds the target; none models the Python NameError when
the loop never breaks. -/
def medianLoop (m : Nat) : List Nat → Nat → Nat → Option Nat
  | [], _, _ => none
  | b :: bs, cum, idx =>
    if m ≤ cum + b then some idx else medianLoop m bs (cum + b) (idx + 1)

/-- The median bucket index computed by the histogram helper. -/
def median_bin_index (data : List ℚ) : Option Nat :=
  medianLoop (median_index data) (histCounts data) 0 0

/- ----------------------------------------------------------------- -/
/- Auxiliary definitions and concrete inputs for the claim proofs.  -/
/- ----------------------------------------------------------------- -/

/-- The keys of an accumulator dict, in insertion order. -/
def keysOf {β : Type} (m : List (String × β)) : List String := m.map Prod.fst

/-- The i-th bin edge of the ten-bucket equal-width histogram: the lower
range edge plus i tenths of the range width. -/
def binEdge (data : List ℚ) (i : Nat) : ℚ :=
  (histRange data).1 +
    ((histRange data).2 - (histRange data).1) * (i : ℚ) / 10

/-- Total outlier count of a list of executions: the sum of the lengths
that the accumulation loop adds one by one. -/
def sumLens (es : List Execution) : Nat := (es.map List.length).sum

/-- The key-set alignment invariant of the three category summaries: the
common and unique summaries have the same keys as the all summary in each
of the three sub-mappings. -/
def SummInv (t : Summaries) : Prop :=
  keysOf t.2.1.benchmarks = keysOf t.1.benchmarks ∧
  keysOf t.2.2.benchmarks = keysOf t.1.benchmarks ∧
  keysOf t.2.1.vms = keysOf t.1.vms ∧
  keysOf t.2.2.vms = keysOf t.1.vms ∧
  keysOf t.2.1.variants = keysOf t.1.variants ∧
  keysOf t.2.2.variants = keysOf t.1.variants

/-- Does the first list of characters occur as a leading run of the
second? -/
def leadingMatch : List Char → List Char → Bool
  | [], _ => true
  | _ :: _, [] => false
  | p :: ps, s :: ss => p == s && leadingMatch ps ss

/-- Does the first list of characters occur contiguously anywhere in the
second?  Used to check whether an error message mentions a key or a
value. -/
def occursIn (pat : List Char) : List Char → Bool
  | [] => leadingMatch pat []
  | s :: ss => leadingMatch pat (s :: ss) || occursIn pat ss

/-- The renderer's actual per-character action, from the source's
replace call: an underscore becomes backslash underscore, every other
character — special in LaTeX or not — stays itself. -/
def escapeChar (c : Char) : List Char :=
  if c = '_' then ['\\', '_'] else [c]

/-- The label with the renderer's per-character action applied exactly
once to each character: the explicit single-pass form of the source's
replace of underscores. -/
def escapedOnce (l : List Char) : List Char := (l.map escapeChar).flatten

/-- Modelled from the claim's wording: the characters with special meaning
in the LaTeX target format (the ten standard specials, the underscore
among them). -/
def latexSpecial (c : Char) : Bool :=
  ['&', '%', '$', '#', '_', '{', '}', '~', '^', '\\'].contains c

/-- A summary binding the names of the key a:b:c to zero in all three
sub-mappings: the aggregation output for a run whose only key was
skipped. -/
def zeroSummaryABC : Summary := ⟨[("a", 0)], [("b", 0)], [("c", 0)]⟩

/-- One machine whose only key a:b:c has an empty execution list in every
collection: the key is skipped, yet its names enter the summaries. -/
def exMdC3 : MachineData :=
  ⟨1000, "Linux mc3 x", [("a:b:c", [])], [("a:b:c", [])], [("a:b:c", [])]⟩

/-- The input of the C3 counterexample run. -/
def exDctsC3 : List (String × MachineData) := [("mc3", exMdC3)]

/-- One machine with one key and distinct per-collection counts, for the
witness runs. -/
def exMdAgg : MachineData :=
  ⟨1000, "Linux magg x", [("a:b:c", [[1, 2], [3]])], [("a:b:c", [[1]])],
   [("a:b:c", [])]⟩

/-- The C4 witness run input. -/
def exDctsAgg : List (String × MachineData) := [("magg", exMdAgg)]

/-- One machine whose only key a:b:c is skipped (empty execution list in
all_outliers) while common and unique hold executions, for the C2
witness. -/
def exMdC2 : MachineData :=
  ⟨1000, "Linux mc2 x", [("a:b:c", [])], [("a:b:c", [[1, 2]])],
   [("a:b:c", [[3]])]⟩

/-- One machine whose only key d:e:f is not skipped, while its common
collection is empty and its unique collection is non-empty, for the C10
witness. -/
def exMdC10 : MachineData :=
  ⟨1000, "Linux mcten x", [("d:e:f", [[1], []])], [("d:e:f", [])],
   [("d:e:f", [[2, 3]])]⟩

/-- The summaries produced by processing the key d:e:f of exMdC10 from
empty summaries. -/
def exRC10 : Summaries :=
  (⟨[("d", 1)], [("e", 1)], [("f", 1)]⟩,
   ⟨[("d", 0)], [("e", 0)], [("f", 0)]⟩,
   ⟨[("d", 2)], [("e", 2)], [("f", 2)]⟩)

/-- One machine holding the malformed key a:b:c:d (four components). -/
def exMdC8 : MachineData :=
  ⟨1000, "Linux mc8 x", [("a:b:c:d", [[1]])], [("a:b:c:d", [[1]])],
   [("a:b:c:d", [[1]])]⟩

/-- The first loaded file of the C1 counterexample, window size five. -/
def exMdW5 : MachineData := ⟨5, "Linux mone x", [], [], []⟩

/-- The second loaded file of the C1 counterexample, window size seven. -/
def exMdW7 : MachineData := ⟨7, "Linux mtwo x", [], [], []⟩

/- ----------------------------------------------------------------- -/
/- Association-list lemmas.                                          -/
/- ----------------------------------------------------------------- -/

theorem alookup_isSome_iff_mem {β : Type} (m : List (String × β)) (n : String) :
    (alookup m n).isSome = true ↔ n ∈ keysOf m := by
  induction m with
  | nil => simp [alookup, keysOf]
  | cons p rest ih =>
    obtain ⟨k1, v⟩ := p
    by_cases h : k1 = n
    · subst h
      simp [alookup, keysOf]
    · simp only [alookup, if_neg h, keysOf, List.map_cons, List.mem_cons]
      rw [keysOf] at ih
      rw [ih]
      constructor
      · intro hmem
        exact Or.inr hmem
      · intro hmem
        cases hmem with
        | inl heq => exact absurd heq.symm h
        | inr hmem2 => exact hmem2

theorem containsName_iff_mem {β : Type} (m : List (String × β)) (n : String) :
    containsName m n = true ↔ n ∈ keysOf m := by
  unfold containsName
  exact alookup_isSome_iff_mem m n

theorem alookup_append_some {β : Type} {m : List (String × β)} {n : String} {x : β}
    (h : alookup m n = some x) (l2 : List (String × β)) :
    alookup (m ++ l2) n = some x := by
  induction m with
  | nil => simp [alookup] at h
  | cons p rest ih =>
    obtain ⟨k1, v⟩ := p
    by_cases hk : k1 = n
    · simp [alookup, hk] at h ⊢
      exact h
    · simp [alookup, hk] at h ⊢
      exact ih h

theorem alookup_append_none {β : Type} {m : List (String × β)} {n : String}
    (h : alookup m n = none) (l2 : List (String × β)) :
    alookup (m ++ l2) n = alookup l2 n := by
  induction m with
  | nil => simp [alookup]
  | cons p rest ih =>
    obtain ⟨k1, v⟩ := p
    by_cases hk : k1 = n
    · simp [alookup, hk] at h
    · simp [alookup, hk] at h ⊢
      exact ih h

theorem alookup_overwrite {β : Type} (m : List (String × β)) (k : String)
    (v : β) (n : String) :
    alookup (overwriteKey m k v) n =
      if n = k then Option.map (fun _ => v) (alookup m n) else alookup m n := by
  induction m with
  | nil => simp [overwriteKey, alookup]
  | cons p rest ih =>
    obtain ⟨k1, w⟩ := p
    by_cases hk : k1 = k
    · subst hk
      by_cases hn : k1 = n
      · subst hn
        simp [overwriteKey, alookup]
      · simp [overwriteKey, alookup, hn, ih]
    · by_cases hn : k1 = n
      · subst hn
        simp [overwriteKey, if_neg hk, alookup, fun h : k1 = k => hk h]
      · simp [overwriteKey, alookup, hk, hn, ih]

theorem alookup_none_of_not_contains {β : Type} {m : List (String × β)}
    {k : String} (h : containsName m k = false) : alookup m k = none := by
  cases hl : alookup m k with
  | none => rfl
  | some x =>
    exfalso
    rw [containsName, hl] at h
    simp at h

theorem alookup_aset {β : Type} (m : List (String × β)) (k : String) (v : β)
    (n : String) :
    alookup (aset m k v) n = if n = k then some v else alookup m n := by
  unfold aset
  by_cases hc : containsName m k
  · rw [if_pos hc, alookup_overwrite]
    by_cases hn : n = k
    · rw [if_pos hn, if_pos hn]
      subst hn
      cases hl : alookup m n with
      | none =>
        exfalso
        rw [containsName, hl] at hc
        simp at hc
      | some x => rfl
    · rw [if_neg hn, if_neg hn]
  · rw [if_neg hc]
    simp only [Bool.not_eq_true] at hc
    by_cases hn : n = k
    · subst hn
      rw [alookup_append_none (alookup_none_of_not_contains hc)]
      simp [alookup]
    · rw [if_neg hn]
      have hkn : ¬k = n := fun hh => hn hh.symm
      cases h : alookup m n with
      | none => simp [alookup_append_none h, alookup, hkn]
      | some x => rw [alookup_append_some h]

theorem alookup_aadd (m : List (String × Nat)) (k : String) (d : Nat)
    (n : String) :
    alookup (aadd m k d) n =
      if n = k then Option.map (· + d) (alookup m n) else alookup m n := by
  induction m with
  | nil => simp [aadd, alookup]
  | cons p rest ih =>
    obtain ⟨k1, v⟩ := p
    by_cases hk : k1 = k
    · subst hk
      by_cases hn : k1 = n
      · subst hn
        simp [aadd, alookup]
      · simp [aadd, alookup, hn, ih]
    · by_cases hn : k1 = n
      · subst hn
        simp [aadd, if_neg hk, alookup, fun h : k1 = k => hk h]
      · simp [aadd, alookup, hk, hn, ih]

theorem keysOf_overwrite {β : Type} (m : List (String × β)) (k : String) (v : β) :
    keysOf (overwriteKey m k v) = keysOf m := by
  induction m with
  | nil => rfl
  | cons p rest ih =>
    obtain ⟨k1, w⟩ := p
    by_cases hk : k1 = k
    · simp [keysOf, overwriteKey, hk] at ih ⊢
      exact ih
    · simp [keysOf, overwriteKey, hk] at ih ⊢
      exact ih

theorem keysOf_aset_of_contains {β : Type} (m : List (String × β)) (k : String)
    (v : β) (h : containsName m k = true) : keysOf (aset m k v) = keysOf m := by
  unfold aset
  simp [h, keysOf_overwrite]

theorem keysOf_aset_of_not_contains {β : Type} (m : List (String × β)) (k : String)
    (v : β) (h : containsName m k = false) :
    keysOf (aset m k v) = keysOf m ++ [k] := by
  unfold aset
  simp [h, keysOf]

theorem keysOf_aadd (m : List (String × Nat)) (k : String) (d : Nat) :
    keysOf (aadd m k d) = keysOf m := by
  induction m with
  | nil => rfl
  | cons p rest ih =>
    obtain ⟨k1, v⟩ := p
    by_cases hk : k1 = k
    · simp [keysOf, aadd, hk] at ih ⊢
      exact ih
    · simp [keysOf, aadd, hk] at ih ⊢
      exact ih

/- ----------------------------------------------------------------- -/
/- The lazy-insertion step and the accumulation loops.               -/
/- ----------------------------------------------------------------- -/

theorem sumLens_cons (ol : Execution) (rest : List Execution) :
    sumLens (ol :: rest) = ol.length + sumLens rest := by
  simp [sumLens]

theorem containsName_eq_of_keysOf_eq {β γ : Type} {m1 : List (String × β)}
    {m2 : List (String × γ)} (h : keysOf m1 = keysOf m2) (n : String) :
    containsName m1 n = containsName m2 n := by
  by_cases h1 : containsName m1 n = true
  · have hm := (containsName_iff_mem m1 n).mp h1
    rw [h] at hm
    rw [h1, (containsName_iff_mem m2 n).mpr hm]
  · by_cases h2 : containsName m2 n = true
    · have hm := (containsName_iff_mem m2 n).mp h2
      rw [← h] at hm
      exact absurd ((containsName_iff_mem m1 n).mpr hm) h1
    · simp only [Bool.not_eq_true] at h1 h2
      rw [h1, h2]

theorem guarded_aset_alookup (g m : List (String × Nat)) (b n : String)
    (hk : keysOf m = keysOf g) :
    alookup (if containsName g b then m else aset m b 0) n =
      if n = b then some ((alookup m n).getD 0) else alookup m n := by
  have hcb : containsName m b = containsName g b := containsName_eq_of_keysOf_eq hk b
  by_cases hg : containsName g b
  · rw [if_pos hg]
    by_cases hn : n = b
    · subst hn
      have hcm : containsName m n = true := by rw [hcb, hg]
      rw [containsName] at hcm
      cases hl : alookup m n with
      | none => rw [hl] at hcm; simp at hcm
      | some x => simp [hl]
    · rw [if_neg hn]
  · rw [if_neg hg, alookup_aset]
    have hcm : containsName m b = false := by
      rw [hcb]
      exact Bool.not_eq_true _ |>.mp hg
    by_cases hn : n = b
    · subst hn
      rw [if_pos rfl, if_pos rfl, alookup_none_of_not_contains hcm]
      rfl
    · rw [if_neg hn, if_neg hn]

theorem guarded_aset_keysOf (g m : List (String × Nat)) (b : String)
    (hk : keysOf m = keysOf g) :
    keysOf (if containsName g b then m else aset m b 0) =
      keysOf m ++ (if containsName g b then [] else [b]) := by
  have hcb : containsName m b = containsName g b := containsName_eq_of_keysOf_eq hk b
  by_cases hg : containsName g b
  · rw [if_pos hg, if_pos hg, List.append_nil]
  · rw [if_neg hg, if_neg hg]
    have hcm : containsName m b = false := by
      rw [hcb]
      exact Bool.not_eq_true _ |>.mp hg
    exact keysOf_aset_of_not_contains m b 0 hcm

theorem guarded_aset_mem (g m : List (String × Nat)) (b n : String)
    (hk : keysOf m = keysOf g) :
    n ∈ keysOf (if containsName g b then m else aset m b 0) ↔
      n ∈ keysOf m ∨ n = b := by
  rw [guarded_aset_keysOf g m b hk, List.mem_append]
  by_cases hg : containsName g b
  · rw [if_pos hg]
    constructor
    · intro hmem
      cases hmem with
      | inl h1 => exact Or.inl h1
      | inr h2 => simp at h2
    · intro hmem
      cases hmem with
      | inl h1 => exact Or.inl h1
      | inr h2 =>
        subst h2
        have : containsName m n = true := by
          rw [containsName_eq_of_keysOf_eq hk n, hg]
        exact Or.inl ((containsName_iff_mem m n).mp this)
  · rw [if_neg hg]
    simp

theorem insertNames_fields (o c u : Summary) (b v w : String) :
    ((insertNames (o, c, u) b v w).1.benchmarks =
      if containsName o.benchmarks b then o.benchmarks else aset o.benchmarks b 0) ∧
    ((insertNames (o, c, u) b v w).2.1.benchmarks =
      if containsName o.benchmarks b then c.benchmarks else aset c.benchmarks b 0) ∧
    ((insertNames (o, c, u) b v w).2.2.benchmarks =
      if containsName o.benchmarks b then u.benchmarks else aset u.benchmarks b 0) ∧
    ((insertNames (o, c, u) b v w).1.vms =
      if containsName o.vms v then o.vms else aset o.vms v 0) ∧
    ((insertNames (o, c, u) b v w).2.1.vms =
      if containsName o.vms v then c.vms else aset c.vms v 0) ∧
    ((insertNames (o, c, u) b v w).2.2.vms =
      if containsName o.vms v then u.vms else aset u.vms v 0) ∧
    ((insertNames (o, c, u) b v w).1.variants =
      if containsName o.variants w then o.variants else aset o.variants w 0) ∧
    ((insertNames (o, c, u) b v w).2.1.variants =
      if containsName o.variants w then c.variants else aset c.variants w 0) ∧
    ((insertNames (o, c, u) b v w).2.2.variants =
      if containsName o.variants w then u.variants else aset u.variants w 0) := by
  by_cases h1 : containsName o.benchmarks b <;>
    by_cases h2 : containsName o.vms v <;>
      by_cases h3 : containsName o.variants w <;>
        simp [insertNames, insertBench, insertVm, insertVariant, h1, h2, h3]

theorem insertNames_SummInv (t : Summaries) (b v w : String)
    (hinv : SummInv t) : SummInv (insertNames t b v w) := by
  obtain ⟨o, c, u⟩ := t
  obtain ⟨i1, i2, i3, i4, i5, i6⟩ := hinv
  obtain ⟨f1, f2, f3, f4, f5, f6, f7, f8, f9⟩ := insertNames_fields o c u b v w
  refine ⟨?_, ?_, ?_, ?_, ?_, ?_⟩
  · rw [f2, f1, guarded_aset_keysOf o.benchmarks c.benchmarks b i1,
      guarded_aset_keysOf o.benchmarks o.benchmarks b rfl, i1]
  · rw [f3, f1, guarded_aset_keysOf o.benchmarks u.benchmarks b i2,
      guarded_aset_keysOf o.benchmarks o.benchmarks b rfl, i2]
  · rw [f5, f4, guarded_aset_keysOf o.vms c.vms v i3,
      guarded_aset_keysOf o.vms o.vms v rfl, i3]
  · rw [f6, f4, guarded_aset_keysOf o.vms u.vms v i4,
      guarded_aset_keysOf o.vms o.vms v rfl, i4]
  · rw [f8, f7, guarded_aset_keysOf o.variants c.variants w i5,
      guarded_aset_keysOf o.variants o.variants w rfl, i5]
  · rw [f9, f7, guarded_aset_keysOf o.variants u.variants w i6,
      guarded_aset_keysOf o.variants o.variants w rfl, i6]

theorem insertNames_alookup (o c u : Summary) (b v w : String)
    (hinv : SummInv (o, c, u)) (n : String) :
    (alookup (insertNames (o, c, u) b v w).1.benchmarks n =
      if n = b then some ((alookup o.benchmarks n).getD 0) else alookup o.benchmarks n) ∧
    (alookup (insertNames (o, c, u) b v w).2.1.benchmarks n =
      if n = b then some ((alookup c.benchmarks n).getD 0) else alookup c.benchmarks n) ∧
    (alookup (insertNames (o, c, u) b v w).2.2.benchmarks n =
      if n = b then some ((alookup u.benchmarks n).getD 0) else alookup u.benchmarks n) ∧
    (alookup (insertNames (o, c, u) b v w).1.vms n =
      if n = v then some ((alookup o.vms n).getD 0) else alookup o.vms n) ∧
    (alookup (insertNames (o, c, u) b v w).2.1.vms n =
      if n = v then some ((alookup c.vms n).getD 0) else alookup c.vms n) ∧
    (alookup (insertNames (o, c, u) b v w).2.2.vms n =
      if n = v then some ((alookup u.vms n).getD 0) else alookup u.vms n) ∧
    (alookup (insertNames (o, c, u) b v w).1.variants n =
      if n = w then some ((alookup o.variants n).getD 0) else alookup o.variants n) ∧
    (alookup (insertNames (o, c, u) b v w).2.1.variants n =
      if n = w then some ((alookup c.variants n).getD 0) else alookup c.variants n) ∧
    (alookup (insertNames (o, c, u) b v w).2.2.variants n =
      if n = w then some ((alookup u.variants n).getD 0) else alookup u.variants n) := by
  obtain ⟨i1, i2, i3, i4, i5, i6⟩ := hinv
  obtain ⟨f1, f2, f3, f4, f5, f6, f7, f8, f9⟩ := insertNames_fields o c u b v w
  exact ⟨by rw [f1]; exact guarded_aset_alookup _ _ b n rfl,
         by rw [f2]; exact guarded_aset_alookup _ _ b n i1,
         by rw [f3]; exact guarded_aset_alookup _ _ b n i2,
         by rw [f4]; exact guarded_aset_alookup _ _ v n rfl,
         by rw [f5]; exact guarded_aset_alookup _ _ v n i3,
         by rw [f6]; exact guarded_aset_alookup _ _ v n i4,
         by rw [f7]; exact guarded_aset_alookup _ _ w n rfl,
         by rw [f8]; exact guarded_aset_alookup _ _ w n i5,
         by rw [f9]; exact guarded_aset_alookup _ _ w n i6⟩

theorem insertNames_mem_o (o c u : Summary) (b v w : String) (n : String) :
    (n ∈ keysOf (insertNames (o, c, u) b v w).1.benchmarks ↔
      n ∈ keysOf o.benchmarks ∨ n = b) ∧
    (n ∈ keysOf (insertNames (o, c, u) b v w).1.vms ↔
      n ∈ keysOf o.vms ∨ n = v) ∧
    (n ∈ keysOf (insertNames (o, c, u) b v w).1.variants ↔
      n ∈ keysOf o.variants ∨ n = w) := by
  obtain ⟨f1, f2, f3, f4, f5, f6, f7, f8, f9⟩ := insertNames_fields o c u b v w
  exact ⟨by rw [f1]; exact guarded_aset_mem _ _ b n rfl,
         by rw [f4]; exact guarded_aset_mem _ _ v n rfl,
         by rw [f7]; exact guarded_aset_mem _ _ w n rfl⟩

theorem accumulate_alookup (b v w : String) (es : List Execution) :
    ∀ (s : Summary) (n : String),
    (alookup (accumulate s b v w es).benchmarks n =
      if n = b then Option.map (· + sumLens es) (alookup s.benchmarks n)
      else alookup s.benchmarks n) ∧
    (alookup (accumulate s b v w es).vms n =
      if n = v then Option.map (· + sumLens es) (alookup s.vms n)
      else alookup s.vms n) ∧
    (alookup (accumulate s b v w es).variants n =
      if n = w then Option.map (· + sumLens es) (alookup s.variants n)
      else alookup s.variants n) := by
  induction es with
  | nil =>
    intro s n
    refine ⟨?_, ?_, ?_⟩ <;> simp [accumulate, sumLens]
  | cons ol rest ih =>
    intro s n
    have hstep := ih ⟨aadd s.benchmarks b ol.length, aadd s.vms v ol.length,
      aadd s.variants w ol.length⟩ n
    refine ⟨?_, ?_, ?_⟩
    · rw [show accumulate s b v w (ol :: rest) =
        accumulate ⟨aadd s.benchmarks b ol.length, aadd s.vms v ol.length,
          aadd s.variants w ol.length⟩ b v w rest from rfl]
      rw [hstep.1]
      simp only [alookup_aadd]
      by_cases hn : n = b
      · rw [if_pos hn, if_pos hn, if_pos hn, sumLens_cons]
        cases alookup s.benchmarks n <;> simp [add_assoc]
      · rw [if_neg hn, if_neg hn, if_neg hn]
    · rw [show accumulate s b v w (ol :: rest) =
        accumulate ⟨aadd s.benchmarks b ol.length, aadd s.vms v ol.length,
          aadd s.variants w ol.length⟩ b v w rest from rfl]
      rw [hstep.2.1]
      simp only [alookup_aadd]
      by_cases hn : n = v
      · rw [if_pos hn, if_pos hn, if_pos hn, sumLens_cons]
        cases alookup s.vms n <;> simp [add_assoc]
      · rw [if_neg hn, if_neg hn, if_neg hn]
    · rw [show accumulate s b v w (ol :: rest) =
        accumulate ⟨aadd s.benchmarks b ol.length, aadd s.vms v ol.length,
          aadd s.variants w ol.length⟩ b v w rest from rfl]
      rw [hstep.2.2]
      simp only [alookup_aadd]
      by_cases hn : n = w
      · rw [if_pos hn, if_pos hn, if_pos hn, sumLens_cons]
        cases alookup s.variants n <;> simp [add_assoc]
      · rw [if_neg hn, if_neg hn, if_neg hn]

theorem accumulate_keysOf (b v w : String) (es : List Execution) :
    ∀ (s : Summary),
    keysOf (accumulate s b v w es).benchmarks = keysOf s.benchmarks ∧
    keysOf (accumulate s b v w es).vms = keysOf s.vms ∧
    keysOf (accumulate s b v w es).variants = keysOf s.variants := by
  induction es with
  | nil => intro s; exact ⟨rfl, rfl, rfl⟩
  | cons ol rest ih =>
    intro s
    have hstep := ih ⟨aadd s.benchmarks b ol.length, aadd s.vms v ol.length,
      aadd s.variants w ol.length⟩
    refine ⟨?_, ?_, ?_⟩
    · rw [show accumulate s b v w (ol :: rest) =
        accumulate ⟨aadd s.benchmarks b ol.length, aadd s.vms v ol.length,
          aadd s.variants w ol.length⟩ b v w rest from rfl]
      rw [hstep.1]
      exact keysOf_aadd _ _ _
    · rw [show accumulate s b v w (ol :: rest) =
        accumulate ⟨aadd s.benchmarks b ol.length, aadd s.vms v ol.length,
          aadd s.variants w ol.length⟩ b v w rest from rfl]
      rw [hstep.2.1]
      exact keysOf_aadd _ _ _
    · rw [show accumulate s b v w (ol :: rest) =
        accumulate ⟨aadd s.benchmarks b ol.length, aadd s.vms v ol.length,
          aadd s.variants w ol.length⟩ b v w rest from rfl]
      rw [hstep.2.2]
      exact keysOf_aadd _ _ _

/- ----------------------------------------------------------------- -/
/- Inversion of one processKey step and the two fold loops.          -/
/- ----------------------------------------------------------------- -/

theorem processKey_ok_elim {t : Summaries} {md : MachineData} {k : String}
    {r : Summaries} (hok : processKey t md k = Except.ok r) :
    ∃ b v w aE cE uE,
      splitKey k = Except.ok (b, v, w) ∧
      lookupE md.all_outliers k = Except.ok aE ∧
      lookupE md.common_outliers k = Except.ok cE ∧
      lookupE md.unique_outliers k = Except.ok uE ∧
      ((skipCheck aE = true ∧ r = insertNames t b v w) ∨
       (skipCheck aE = false ∧
        r = (accumulate (insertNames t b v w).1 b v w aE,
             accumulate (insertNames t b v w).2.1 b v w cE,
             accumulate (insertNames t b v w).2.2 b v w uE))) := by
  unfold processKey at hok
  cases hs : splitKey k with
  | error e => rw [hs] at hok; exact Except.noConfusion hok
  | ok bvw =>
    obtain ⟨b, v, w⟩ := bvw
    cases ha : lookupE md.all_outliers k with
    | error e => rw [hs, ha] at hok; exact Except.noConfusion hok
    | ok aE =>
      cases hc : lookupE md.common_outliers k with
      | error e => rw [hs, ha, hc] at hok; exact Except.noConfusion hok
      | ok cE =>
        cases hu : lookupE md.unique_outliers k with
        | error e => rw [hs, ha, hc, hu] at hok; exact Except.noConfusion hok
        | ok uE =>
          refine ⟨b, v, w, aE, cE, uE, rfl, rfl, rfl, rfl, ?_⟩
          cases aE with
          | nil =>
            simp only [hs, ha, hc, hu] at hok
            exact Or.inl ⟨rfl, (Except.ok.inj hok).symm⟩
          | cons e0 arest =>
            simp only [hs, ha, hc, hu] at hok
            by_cases hz : e0.length = 0
            · rw [if_pos hz] at hok
              refine Or.inl ⟨by simp [skipCheck, hz], (Except.ok.inj hok).symm⟩
            · rw [if_neg hz] at hok
              refine Or.inr ⟨by simp [skipCheck, hz], (Except.ok.inj hok).symm⟩

theorem process_keys_pres (md : MachineData) (P : Summaries → Prop)
    (step : ∀ t k r, processKey t md k = Except.ok r → P t → P r) :
    ∀ (ks : List String) (t r : Summaries),
      process_keys t md ks = Except.ok r → P t → P r := by
  intro ks
  induction ks with
  | nil =>
    intro t r h hp
    unfold process_keys at h
    rw [← Except.ok.inj h]
    exact hp
  | cons k rest ih =>
    intro t r h hp
    unfold process_keys at h
    cases hpk : processKey t md k with
    | error e => rw [hpk] at h; exact Except.noConfusion h
    | ok t1 =>
      rw [hpk] at h
      exact ih t1 r h (step t k t1 hpk hp)

theorem process_machines_pres (P : Summaries → Prop)
    (step : ∀ t (md : MachineData) k r, processKey t md k = Except.ok r → P t → P r) :
    ∀ (ms : List (String × MachineData)) (t r : Summaries),
      process_machines t ms = Except.ok r → P t → P r := by
  intro ms
  induction ms with
  | nil =>
    intro t r h hp
    unfold process_machines at h
    rw [← Except.ok.inj h]
    exact hp
  | cons m rest ih =>
    intro t r h hp
    unfold process_machines at h
    cases hpm : processMachine t m.2 with
    | error e => rw [hpm] at h; exact Except.noConfusion h
    | ok t1 =>
      rw [hpm] at h
      refine ih t1 r h ?_
      exact process_keys_pres m.2 P (fun t2 k r2 hk hp2 => step t2 m.2 k r2 hk hp2)
        _ t t1 hpm hp

theorem processKey_SummInv {t : Summaries} {md : MachineData} {k : String}
    {r : Summaries} (hok : processKey t md k = Except.ok r)
    (hinv : SummInv t) : SummInv r := by
  obtain ⟨b, v, w, aE, cE, uE, hs, ha, hc, hu, hcase⟩ := processKey_ok_elim hok
  cases hcase with
  | inl h =>
    rw [h.2]
    exact insertNames_SummInv t b v w hinv
  | inr h =>
    rw [h.2]
    have hti := insertNames_SummInv t b v w hinv
    obtain ⟨j1, j2, j3, j4, j5, j6⟩ := hti
    have ka := accumulate_keysOf b v w aE (insertNames t b v w).1
    have kc := accumulate_keysOf b v w cE (insertNames t b v w).2.1
    have ku := accumulate_keysOf b v w uE (insertNames t b v w).2.2
    exact ⟨by rw [kc.1, ka.1]; exact j1,
           by rw [ku.1, ka.1]; exact j2,
           by rw [kc.2.1, ka.2.1]; exact j3,
           by rw [ku.2.1, ka.2.1]; exact j4,
           by rw [kc.2.2, ka.2.2]; exact j5,
           by rw [ku.2.2, ka.2.2]; exact j6⟩

theorem aggregate_SummInv {dcts : List (String × MachineData)} {r : Summaries}
    (hok : aggregate_summaries dcts = Except.ok r) : SummInv r := by
  refine process_machines_pres SummInv
    (fun t2 md k r2 hk hp => processKey_SummInv hk hp) dcts
    (emptySummary, emptySummary, emptySummary) r hok ?_
  exact ⟨rfl, rfl, rfl, rfl, rfl, rfl⟩

theorem splitKey_ok_parts {k b v w : String}
    (h : splitKey k = Except.ok (b, v, w)) : splitOnChar k ':' = [b, v, w] := by
  unfold splitKey at h
  cases hp : splitOnChar k ':' with
  | nil => rw [hp] at h; simp at h
  | cons a1 l1 =>
    cases l1 with
    | nil => rw [hp] at h; simp at h
    | cons a2 l2 =>
      cases l2 with
      | nil => rw [hp] at h; simp at h
      | cons a3 l3 =>
        cases l3 with
        | nil =>
          rw [hp] at h
          have := Except.ok.inj h
          rw [show a1 = b from congrArg Prod.fst this,
            show a2 = v from congrArg (fun p => p.2.1) this,
            show a3 = w from congrArg (fun p => p.2.2) this]
        | cons a4 l4 => rw [hp] at h; simp at h

theorem splitKey_ok_components {k b v w : String}
    (h : splitKey k = Except.ok (b, v, w)) :
    benchOf k = b ∧ vmOf k = v ∧ varOf k = w := by
  have hp := splitKey_ok_parts h
  unfold benchOf vmOf varOf
  rw [hp]
  exact ⟨rfl, rfl, rfl⟩

theorem mem_insertSorted (x a : String) (l : List String) :
    a ∈ insertSorted x l ↔ a = x ∨ a ∈ l := by
  induction l with
  | nil => simp [insertSorted]
  | cons y ys ih =>
    unfold insertSorted
    by_cases h : x ≤ y
    · rw [if_pos h]
      simp [List.mem_cons]
    · rw [if_neg h]
      simp only [List.mem_cons, ih]
      constructor
      · intro hm
        cases hm with
        | inl h1 => exact Or.inr (Or.inl h1)
        | inr h2 =>
          cases h2 with
          | inl h3 => exact Or.inl h3
          | inr h4 => exact Or.inr (Or.inr h4)
      · intro hm
        cases hm with
        | inl h1 => exact Or.inr (Or.inl h1)
        | inr h2 =>
          cases h2 with
          | inl h3 => exact Or.inl h3
          | inr h4 => exact Or.inr (Or.inr h4)

theorem mem_sortStrings (a : String) (l : List String) :
    a ∈ sortStrings l ↔ a ∈ l := by
  induction l with
  | nil => simp [sortStrings]
  | cons x xs ih =>
    unfold sortStrings
    rw [mem_insertSorted, ih, List.mem_cons]

theorem mapPreserved_of_guarded {m m2 : List (String × Nat)} {key : String}
    (h : ∀ n, alookup m2 n =
      if n = key then some ((alookup m n).getD 0) else alookup m n) :
    mapPreserved m m2 := by
  intro n
  have hn := h n
  by_cases hk : n = key
  · rw [if_pos hk] at hn
    cases hl : alookup m n with
    | none =>
      right
      refine ⟨rfl, ?_⟩
      rw [hn, hl]
      rfl
    | some x =>
      left
      rw [hn, hl]
      rfl
  · left
    rw [hn, if_neg hk]

theorem insertNames_summPreserved (o c u : Summary) (b v w : String)
    (hinv : SummInv (o, c, u)) :
    summPreserved (o, c, u) (insertNames (o, c, u) b v w) := by
  have hal : ∀ n, _ := fun n => insertNames_alookup o c u b v w hinv n
  exact ⟨mapPreserved_of_guarded (fun n => (hal n).1),
         mapPreserved_of_guarded (fun n => (hal n).2.2.2.1),
         mapPreserved_of_guarded (fun n => (hal n).2.2.2.2.2.2.1),
         mapPreserved_of_guarded (fun n => (hal n).2.1),
         mapPreserved_of_guarded (fun n => (hal n).2.2.2.2.1),
         mapPreserved_of_guarded (fun n => (hal n).2.2.2.2.2.2.2.1),
         mapPreserved_of_guarded (fun n => (hal n).2.2.1),
         mapPreserved_of_guarded (fun n => (hal n).2.2.2.2.2.1),
         mapPreserved_of_guarded (fun n => (hal n).2.2.2.2.2.2.2.2)⟩

theorem processKey_mem_o {t : Summaries} {md : MachineData} {k : String}
    {r : Summaries} (hok : processKey t md k = Except.ok r) (n : String) :
    (n ∈ keysOf r.1.benchmarks ↔ n ∈ keysOf t.1.benchmarks ∨ n = benchOf k) ∧
    (n ∈ keysOf r.1.vms ↔ n ∈ keysOf t.1.vms ∨ n = vmOf k) ∧
    (n ∈ keysOf r.1.variants ↔ n ∈ keysOf t.1.variants ∨ n = varOf k) := by
  obtain ⟨b, v, w, aE, cE, uE, hs, ha, hc, hu, hcase⟩ := processKey_ok_elim hok
  obtain ⟨hb, hv, hw⟩ := splitKey_ok_components hs
  subst hb
  subst hv
  subst hw
  obtain ⟨o, c, u⟩ := t
  have hmem := insertNames_mem_o o c u (benchOf k) (vmOf k) (varOf k) n
  cases hcase with
  | inl h =>
    have e1 : r.1 = (insertNames (o, c, u) (benchOf k) (vmOf k) (varOf k)).1 := by
      rw [h.2]
    rw [e1]
    exact hmem
  | inr h =>
    have e1 : r.1 = accumulate (insertNames (o, c, u) (benchOf k) (vmOf k)
        (varOf k)).1 (benchOf k) (vmOf k) (varOf k) aE := by
      rw [h.2]
    have ka := accumulate_keysOf (benchOf k) (vmOf k) (varOf k) aE
      (insertNames (o, c, u) (benchOf k) (vmOf k) (varOf k)).1
    rw [e1]
    exact ⟨by rw [ka.1]; exact hmem.1,
           by rw [ka.2.1]; exact hmem.2.1,
           by rw [ka.2.2]; exact hmem.2.2⟩

theorem process_keys_mem_o (md : MachineData) :
    ∀ (ks : List String) (t r : Summaries),
      process_keys t md ks = Except.ok r → ∀ n : String,
      (n ∈ keysOf r.1.benchmarks ↔
        n ∈ keysOf t.1.benchmarks ∨ ∃ k ∈ ks, n = benchOf k) ∧
      (n ∈ keysOf r.1.vms ↔
        n ∈ keysOf t.1.vms ∨ ∃ k ∈ ks, n = vmOf k) ∧
      (n ∈ keysOf r.1.variants ↔
        n ∈ keysOf t.1.variants ∨ ∃ k ∈ ks, n = varOf k) := by
  intro ks
  induction ks with
  | nil =>
    intro t r h n
    unfold process_keys at h
    rw [← Except.ok.inj h]
    simp
  | cons k rest ih =>
    intro t r h n
    unfold process_keys at h
    cases hpk : processKey t md k with
    | error e => rw [hpk] at h; exact Except.noConfusion h
    | ok t1 =>
      rw [hpk] at h
      have hstep := processKey_mem_o hpk n
      have hrest := ih t1 r h n
      refine ⟨?_, ?_, ?_⟩
      · rw [hrest.1, hstep.1]
        simp only [List.mem_cons]
        constructor
        · rintro ((h1 | h2) | ⟨k2, hk2, h3⟩)
          · exact Or.inl h1
          · exact Or.inr ⟨k, Or.inl rfl, h2⟩
          · exact Or.inr ⟨k2, Or.inr hk2, h3⟩
        · rintro (h1 | ⟨k2, (hk2 | hk2), h3⟩)
          · exact Or.inl (Or.inl h1)
          · exact Or.inl (Or.inr (hk2 ▸ h3))
          · exact Or.inr ⟨k2, hk2, h3⟩
      · rw [hrest.2.1, hstep.2.1]
        simp only [List.mem_cons]
        constructor
        · rintro ((h1 | h2) | ⟨k2, hk2, h3⟩)
          · exact Or.inl h1
          · exact Or.inr ⟨k, Or.inl rfl, h2⟩
          · exact Or.inr ⟨k2, Or.inr hk2, h3⟩
        · rintro (h1 | ⟨k2, (hk2 | hk2), h3⟩)
          · exact Or.inl (Or.inl h1)
          · exact Or.inl (Or.inr (hk2 ▸ h3))
          · exact Or.inr ⟨k2, hk2, h3⟩
      · rw [hrest.2.2, hstep.2.2]
        simp only [List.mem_cons]
        constructor
        · rintro ((h1 | h2) | ⟨k2, hk2, h3⟩)
          · exact Or.inl h1
          · exact Or.inr ⟨k, Or.inl rfl, h2⟩
          · exact Or.inr ⟨k2, Or.inr hk2, h3⟩
        · rintro (h1 | ⟨k2, (hk2 | hk2), h3⟩)
          · exact Or.inl (Or.inl h1)
          · exact Or.inl (Or.inr (hk2 ▸ h3))
          · exact Or.inr ⟨k2, hk2, h3⟩

theorem processMachine_mem_o {t r : Summaries} {md : MachineData}
    (h : processMachine t md = Except.ok r) (n : String) :
    (n ∈ keysOf r.1.benchmarks ↔ n ∈ keysOf t.1.benchmarks ∨
      ∃ q ∈ md.all_outliers, n = benchOf q.1) ∧
    (n ∈ keysOf r.1.vms ↔ n ∈ keysOf t.1.vms ∨
      ∃ q ∈ md.all_outliers, n = vmOf q.1) ∧
    (n ∈ keysOf r.1.variants ↔ n ∈ keysOf t.1.variants ∨
      ∃ q ∈ md.all_outliers, n = varOf q.1) := by
  unfold processMachine at h
  have hm := process_keys_mem_o md _ t r h n
  have hkeys : ∀ (f : String → String),
      ((∃ k ∈ sortStrings (md.all_outliers.map Prod.fst), n = f k) ↔
        ∃ q ∈ md.all_outliers, n = f q.1) := by
    intro f
    constructor
    · rintro ⟨k, hk, hn⟩
      rw [mem_sortStrings] at hk
      obtain ⟨q, hq, hqk⟩ := List.mem_map.mp hk
      exact ⟨q, hq, hqk ▸ hn⟩
    · rintro ⟨q, hq, hn⟩
      refine ⟨q.1, ?_, hn⟩
      rw [mem_sortStrings]
      exact List.mem_map.mpr ⟨q, hq, rfl⟩
  exact ⟨by rw [hm.1, hkeys benchOf],
         by rw [hm.2.1, hkeys vmOf],
         by rw [hm.2.2, hkeys varOf]⟩

theorem process_machines_mem_o :
    ∀ (ms : List (String × MachineData)) (t r : Summaries),
      process_machines t ms = Except.ok r → ∀ n : String,
      (n ∈ keysOf r.1.benchmarks ↔ n ∈ keysOf t.1.benchmarks ∨
        ∃ p ∈ ms, ∃ q ∈ p.2.all_outliers, n = benchOf q.1) ∧
      (n ∈ keysOf r.1.vms ↔ n ∈ keysOf t.1.vms ∨
        ∃ p ∈ ms, ∃ q ∈ p.2.all_outliers, n = vmOf q.1) ∧
      (n ∈ keysOf r.1.variants ↔ n ∈ keysOf t.1.variants ∨
        ∃ p ∈ ms, ∃ q ∈ p.2.all_outliers, n = varOf q.1) := by
  intro ms
  induction ms with
  | nil =>
    intro t r h n
    unfold process_machines at h
    rw [← Except.ok.inj h]
    simp
  | cons m rest ih =>
    intro t r h n
    unfold process_machines at h
    cases hpm : processMachine t m.2 with
    | error e => rw [hpm] at h; exact Except.noConfusion h
    | ok t1 =>
      rw [hpm] at h
      have hstep := processMachine_mem_o hpm n
      have hrest := ih t1 r h n
      refine ⟨?_, ?_, ?_⟩
      · rw [hrest.1, hstep.1]
        simp only [List.mem_cons]
        constructor
        · rintro ((h1 | h2) | ⟨p, hp, h3⟩)
          · exact Or.inl h1
          · exact Or.inr ⟨m, Or.inl rfl, h2⟩
          · exact Or.inr ⟨p, Or.inr hp, h3⟩
        · rintro (h1 | ⟨p, (hp | hp), h3⟩)
          · exact Or.inl (Or.inl h1)
          · exact Or.inl (Or.inr (hp ▸ h3))
          · exact Or.inr ⟨p, hp, h3⟩
      · rw [hrest.2.1, hstep.2.1]
        simp only [List.mem_cons]
        constructor
        · rintro ((h1 | h2) | ⟨p, hp, h3⟩)
          · exact Or.inl h1
          · exact Or.inr ⟨m, Or.inl rfl, h2⟩
          · exact Or.inr ⟨p, Or.inr hp, h3⟩
        · rintro (h1 | ⟨p, (hp | hp), h3⟩)
          · exact Or.inl (Or.inl h1)
          · exact Or.inl (Or.inr (hp ▸ h3))
          · exact Or.inr ⟨p, hp, h3⟩
      · rw [hrest.2.2, hstep.2.2]
        simp only [List.mem_cons]
        constructor
        · rintro ((h1 | h2) | ⟨p, hp, h3⟩)
          · exact Or.inl h1
          · exact Or.inr ⟨m, Or.inl rfl, h2⟩
          · exact Or.inr ⟨p, Or.inr hp, h3⟩
        · rintro (h1 | ⟨p, (hp | hp), h3⟩)
          · exact Or.inl (Or.inl h1)
          · exact Or.inl (Or.inr (hp ▸ h3))
          · exact Or.inr ⟨p, hp, h3⟩

/- ----------------------------------------------------------------- -/
/- Claim theorems: aggregation skip laws.                            -/
/- ----------------------------------------------------------------- -/

/-- C2: for every key in a Result Set whose recorded execution list is
empty, or whose first execution is an empty sequence, the per-key
aggregation step skips the key entirely: in all three category summaries no
outlier count is accumulated into any benchmark, vm, or variant binding —
every existing count is unchanged and any newly inserted name carries the
count zero. -/
theorem claim_c2_skip_law (t : Summaries) (md : MachineData) (k : String)
    (r : Summaries) (aE : List Execution) (hinv : SummInv t)
    (hall : lookupE md.all_outliers k = Except.ok aE)
    (hskip : aE = [] ∨ ∃ rest, aE = [] :: rest)
    (hok : processKey t md k = Except.ok r) :
    summPreserved t r := by
  obtain ⟨o, c, u⟩ := t
  obtain ⟨b, v, w, aE2, cE, uE, hs, ha, hc, hu, hcase⟩ := processKey_ok_elim hok
  have haE : aE2 = aE := Except.ok.inj (ha.symm.trans hall)
  subst haE
  have hsk : skipCheck aE2 = true := by
    cases hskip with
    | inl h => rw [h]; rfl
    | inr h => obtain ⟨rest, he⟩ := h; rw [he]; rfl
  cases hcase with
  | inl h =>
    rw [h.2]
    exact insertNames_summPreserved o c u b v w hinv
  | inr h =>
    rw [h.1] at hsk
    exact Bool.noConfusion hsk

/-- C10: whether a key is skipped is decided solely by its entry in the
all_outliers collection.  If that entry triggers the skip, the common and
unique summaries are left untouched no matter what the common and unique
collections hold for the key; otherwise the counts of the common and unique
collections are accumulated into their summaries regardless of whether those
collections are empty or start with an empty execution, and the all
collection is accumulated into the all summary. -/
theorem claim_c10_skip_source (o c u : Summary) (md : MachineData) (k : String)
    (r : Summaries) (b v w : String) (aE cE uE : List Execution)
    (hinv : SummInv (o, c, u))
    (hsplit : splitKey k = Except.ok (b, v, w))
    (hall : lookupE md.all_outliers k = Except.ok aE)
    (hcommon : lookupE md.common_outliers k = Except.ok cE)
    (hunique : lookupE md.unique_outliers k = Except.ok uE)
    (hok : processKey (o, c, u) md k = Except.ok r) :
    (skipCheck aE = true →
      mapPreserved c.benchmarks r.2.1.benchmarks ∧
      mapPreserved c.vms r.2.1.vms ∧
      mapPreserved c.variants r.2.1.variants ∧
      mapPreserved u.benchmarks r.2.2.benchmarks ∧
      mapPreserved u.vms r.2.2.vms ∧
      mapPreserved u.variants r.2.2.variants) ∧
    (skipCheck aE = false →
      (alookup r.1.benchmarks b = some ((alookup o.benchmarks b).getD 0 + sumLens aE) ∧
       alookup r.1.vms v = some ((alookup o.vms v).getD 0 + sumLens aE) ∧
       alookup r.1.variants w = some ((alookup o.variants w).getD 0 + sumLens aE)) ∧
      (alookup r.2.1.benchmarks b = some ((alookup c.benchmarks b).getD 0 + sumLens cE) ∧
       alookup r.2.1.vms v = some ((alookup c.vms v).getD 0 + sumLens cE) ∧
       alookup r.2.1.variants w = some ((alookup c.variants w).getD 0 + sumLens cE)) ∧
      (alookup r.2.2.benchmarks b = some ((alookup u.benchmarks b).getD 0 + sumLens uE) ∧
       alookup r.2.2.vms v = some ((alookup u.vms v).getD 0 + sumLens uE) ∧
       alookup r.2.2.variants w = some ((alookup u.variants w).getD 0 + sumLens uE))) := by
  obtain ⟨b2, v2, w2, aE2, cE2, uE2, hs, ha, hc, hu, hcase⟩ := processKey_ok_elim hok
  have hbvw : (b2, v2, w2) = (b, v, w) := Except.ok.inj (hs.symm.trans hsplit)
  have hb : b2 = b := congrArg (fun p => p.1) hbvw
  have hv : v2 = v := congrArg (fun p => p.2.1) hbvw
  have hw : w2 = w := congrArg (fun p => p.2.2) hbvw
  subst hb
  subst hv
  subst hw
  have haE : aE2 = aE := Except.ok.inj (ha.symm.trans hall)
  have hcE : cE2 = cE := Except.ok.inj (hc.symm.trans hcommon)
  have huE : uE2 = uE := Except.ok.inj (hu.symm.trans hunique)
  subst haE
  subst hcE
  subst huE
  have hal : ∀ n, _ := fun n => insertNames_alookup o c u b2 v2 w2 hinv n
  cases hcase with
  | inl h =>
    constructor
    · intro _
      have hpres := insertNames_summPreserved o c u b2 v2 w2 hinv
      have e2 : r.2.1 = (insertNames (o, c, u) b2 v2 w2).2.1 := by rw [h.2]
      have e3 : r.2.2 = (insertNames (o, c, u) b2 v2 w2).2.2 := by rw [h.2]
      rw [e2, e3]
      exact ⟨hpres.2.2.2.1, hpres.2.2.2.2.1, hpres.2.2.2.2.2.1,
        hpres.2.2.2.2.2.2.1, hpres.2.2.2.2.2.2.2.1, hpres.2.2.2.2.2.2.2.2⟩
    · intro hfalse
      rw [h.1] at hfalse
      exact Bool.noConfusion hfalse
  | inr h =>
    constructor
    · intro htrue
      rw [h.1] at htrue
      exact Bool.noConfusion htrue
    · intro _
      have e1 : r.1 = accumulate (insertNames (o, c, u) b2 v2 w2).1 b2 v2 w2 aE2 := by
        rw [h.2]
      have e2 : r.2.1 = accumulate (insertNames (o, c, u) b2 v2 w2).2.1 b2 v2 w2 cE2 := by
        rw [h.2]
      have e3 : r.2.2 = accumulate (insertNames (o, c, u) b2 v2 w2).2.2 b2 v2 w2 uE2 := by
        rw [h.2]
      have acc1 := accumulate_alookup b2 v2 w2 aE2 (insertNames (o, c, u) b2 v2 w2).1
      have acc2 := accumulate_alookup b2 v2 w2 cE2 (insertNames (o, c, u) b2 v2 w2).2.1
      have acc3 := accumulate_alookup b2 v2 w2 uE2 (insertNames (o, c, u) b2 v2 w2).2.2
      refine ⟨⟨?_, ?_, ?_⟩, ⟨?_, ?_, ?_⟩, ⟨?_, ?_, ?_⟩⟩
      · rw [e1, (acc1 b2).1, if_pos rfl, (hal b2).1, if_pos rfl]
        rfl
      · rw [e1, (acc1 v2).2.1, if_pos rfl, (hal v2).2.2.2.1, if_pos rfl]
        rfl
      · rw [e1, (acc1 w2).2.2, if_pos rfl, (hal w2).2.2.2.2.2.2.1, if_pos rfl]
        rfl
      · rw [e2, (acc2 b2).1, if_pos rfl, (hal b2).2.1, if_pos rfl]
        rfl
      · rw [e2, (acc2 v2).2.1, if_pos rfl, (hal v2).2.2.2.2.1, if_pos rfl]
        rfl
      · rw [e2, (acc2 w2).2.2, if_pos rfl, (hal w2).2.2.2.2.2.2.2.1, if_pos rfl]
        rfl
      · rw [e3, (acc3 b2).1, if_pos rfl, (hal b2).2.2.1, if_pos rfl]
        rfl
      · rw [e3, (acc3 v2).2.1, if_pos rfl, (hal v2).2.2.2.2.2.1, if_pos rfl]
        rfl
      · rw [e3, (acc3 w2).2.2, if_pos rfl, (hal w2).2.2.2.2.2.2.2.2, if_pos rfl]
        rfl

/- ----------------------------------------------------------------- -/
/- Claim theorems: key sets of the summaries.                        -/
/- ----------------------------------------------------------------- -/

/-- C4: after every aggregation run the three category summaries have
pairwise identical key sets in each of their three sub-mappings, even
though the counts differ. -/
theorem claim_c4_shared_key_sets (dcts : List (String × MachineData))
    (o c u : Summary) (hok : aggregate_summaries dcts = Except.ok (o, c, u)) :
    (keysOf c.benchmarks = keysOf o.benchmarks ∧
     keysOf u.benchmarks = keysOf o.benchmarks) ∧
    (keysOf c.vms = keysOf o.vms ∧ keysOf u.vms = keysOf o.vms) ∧
    (keysOf c.variants = keysOf o.variants ∧
     keysOf u.variants = keysOf o.variants) := by
  obtain ⟨i1, i2, i3, i4, i5, i6⟩ := aggregate_SummInv hok
  exact ⟨⟨i1, i2⟩, ⟨i3, i4⟩, ⟨i5, i6⟩⟩

/-- C3 (amended): after every aggregation run, each sub-mapping of each
category summary contains exactly the names that appear in the
corresponding position of at least one key of some machine's all_outliers
collection — whether that key was skipped or not.  (The unamended claim,
that names occurring only in skipped keys are absent, is refuted by
claim_c3_counterexample: names are inserted with count zero before the skip
test runs.) -/
theorem claim_c3_amended (dcts : List (String × MachineData))
    (o c u : Summary) (hok : aggregate_summaries dcts = Except.ok (o, c, u))
    (n : String) :
    (containsName o.benchmarks n = true ↔
      ∃ p ∈ dcts, ∃ q ∈ p.2.all_outliers, n = benchOf q.1) ∧
    (containsName o.vms n = true ↔
      ∃ p ∈ dcts, ∃ q ∈ p.2.all_outliers, n = vmOf q.1) ∧
    (containsName o.variants n = true ↔
      ∃ p ∈ dcts, ∃ q ∈ p.2.all_outliers, n = varOf q.1) ∧
    containsName c.benchmarks n = containsName o.benchmarks n ∧
    containsName c.vms n = containsName o.vms n ∧
    containsName c.variants n = containsName o.variants n ∧
    containsName u.benchmarks n = containsName o.benchmarks n ∧
    containsName u.vms n = containsName o.vms n ∧
    containsName u.variants n = containsName o.variants n := by
  have hm := process_machines_mem_o dcts (emptySummary, emptySummary, emptySummary)
    (o, c, u) hok n
  obtain ⟨i1, i2, i3, i4, i5, i6⟩ := aggregate_SummInv hok
  have hempty : n ∈ keysOf emptySummary.benchmarks ↔ False := by
    simp [emptySummary, keysOf]
  refine ⟨?_, ?_, ?_,
    containsName_eq_of_keysOf_eq i1 n, containsName_eq_of_keysOf_eq i3 n,
    containsName_eq_of_keysOf_eq i5 n, containsName_eq_of_keysOf_eq i2 n,
    containsName_eq_of_keysOf_eq i4 n, containsName_eq_of_keysOf_eq i6 n⟩
  · rw [containsName_iff_mem, hm.1]
    simp [emptySummary, keysOf]
  · rw [containsName_iff_mem, hm.2.1]
    simp [emptySummary, keysOf]
  · rw [containsName_iff_mem, hm.2.2]
    simp [emptySummary, keysOf]

/-- C3 (counterexample): the claim that a name occurring only in skipped
keys does not appear in any summary is false: here the only key a:b:c of
the input is skipped (its execution list is empty), yet the name a appears
in the benchmarks sub-mapping of every summary, bound to zero. -/
theorem claim_c3_counterexample :
    aggregate_summaries exDctsC3 =
      Except.ok (zeroSummaryABC, zeroSummaryABC, zeroSummaryABC) ∧
    (∀ q ∈ exMdC3.all_outliers, q.2 = []) ∧
    containsName zeroSummaryABC.benchmarks "a" = true ∧
    containsName zeroSummaryABC.vms "b" = true ∧
    containsName zeroSummaryABC.variants "c" = true := by
  refine ⟨rfl, ?_, rfl, rfl, rfl⟩
  intro q hq
  cases hq with
  | head => rfl
  | tail _ h => cases h

/-- C3 (witness for the amended claim): the amended claim applied to the
counterexample input at each of the three inserted names. -/
theorem claim_c3_amended_witness :
    containsName zeroSummaryABC.benchmarks "a" = true ↔
      ∃ p ∈ exDctsC3, ∃ q ∈ p.2.all_outliers, "a" = benchOf q.1 :=
  (claim_c3_amended exDctsC3 zeroSummaryABC zeroSummaryABC zeroSummaryABC rfl "a").1

/-- C4 (witness): the key-set law applied to a concrete run in which the
three summaries carry different counts (3, 1 and 0 for the benchmark a). -/
theorem claim_c4_witness :
    (keysOf (⟨[("a", 1)], [("b", 1)], [("c", 1)]⟩ : Summary).benchmarks =
       keysOf (⟨[("a", 3)], [("b", 3)], [("c", 3)]⟩ : Summary).benchmarks ∧
     keysOf (⟨[("a", 0)], [("b", 0)], [("c", 0)]⟩ : Summary).benchmarks =
       keysOf (⟨[("a", 3)], [("b", 3)], [("c", 3)]⟩ : Summary).benchmarks) ∧
    (keysOf (⟨[("a", 1)], [("b", 1)], [("c", 1)]⟩ : Summary).vms =
       keysOf (⟨[("a", 3)], [("b", 3)], [("c", 3)]⟩ : Summary).vms ∧
     keysOf (⟨[("a", 0)], [("b", 0)], [("c", 0)]⟩ : Summary).vms =
       keysOf (⟨[("a", 3)], [("b", 3)], [("c", 3)]⟩ : Summary).vms) ∧
    (keysOf (⟨[("a", 1)], [("b", 1)], [("c", 1)]⟩ : Summary).variants =
       keysOf (⟨[("a", 3)], [("b", 3)], [("c", 3)]⟩ : Summary).variants ∧
     keysOf (⟨[("a", 0)], [("b", 0)], [("c", 0)]⟩ : Summary).variants =
       keysOf (⟨[("a", 3)], [("b", 3)], [("c", 3)]⟩ : Summary).variants) :=
  claim_c4_shared_key_sets exDctsAgg
    ⟨[("a", 3)], [("b", 3)], [("c", 3)]⟩
    ⟨[("a", 1)], [("b", 1)], [("c", 1)]⟩
    ⟨[("a", 0)], [("b", 0)], [("c", 0)]⟩ rfl

/-- C2 (witness): the skip law applied to a concrete key with an empty
execution list, starting from empty summaries. -/
theorem claim_c2_witness :
    processKey (emptySummary, emptySummary, emptySummary) exMdC2 "a:b:c" =
      Except.ok (zeroSummaryABC, zeroSummaryABC, zeroSummaryABC) ∧
    summPreserved (emptySummary, emptySummary, emptySummary)
      (zeroSummaryABC, zeroSummaryABC, zeroSummaryABC) :=
  ⟨rfl,
   claim_c2_skip_law (emptySummary, emptySummary, emptySummary) exMdC2 "a:b:c"
     (zeroSummaryABC, zeroSummaryABC, zeroSummaryABC) []
     ⟨rfl, rfl, rfl, rfl, rfl, rfl⟩ rfl (Or.inl rfl) rfl⟩

/-- C10 (witness): the skip-source law applied to a concrete non-skipped
key whose common collection is empty and whose unique collection is not:
the common summary receives zero and the unique summary receives two. -/
theorem claim_c10_witness :
    alookup exRC10.2.1.benchmarks "d" =
      some ((alookup emptySummary.benchmarks "d").getD 0 +
        sumLens ([] : List Execution)) ∧
    alookup exRC10.2.2.benchmarks "d" =
      some ((alookup emptySummary.benchmarks "d").getD 0 + sumLens [[2, 3]]) := by
  have h := claim_c10_skip_source emptySummary emptySummary emptySummary exMdC10
    "d:e:f" exRC10 "d" "e" "f" [[1], []] [] [[2, 3]]
    ⟨rfl, rfl, rfl, rfl, rfl, rfl⟩ rfl rfl rfl rfl rfl
  have h2 := h.2 rfl
  exact ⟨h2.2.1.1, h2.2.2.1⟩

/- ----------------------------------------------------------------- -/
/- Claim theorems: malformed keys abort the run (C8).                -/
/- ----------------------------------------------------------------- -/

theorem splitKey_error_of_parts {k : String}
    (h : (splitOnChar k ':').length ≠ 3) : ∃ e, splitKey k = Except.error e := by
  unfold splitKey
  cases hp : splitOnChar k ':' with
  | nil => exact ⟨_, rfl⟩
  | cons a1 l1 =>
    cases l1 with
    | nil => exact ⟨_, rfl⟩
    | cons a2 l2 =>
      cases l2 with
      | nil => exact ⟨_, rfl⟩
      | cons a3 l3 =>
        cases l3 with
        | nil => exact absurd (by rw [hp]; rfl) h
        | cons a4 l4 =>
          have hlen : (a1 :: a2 :: a3 :: a4 :: l4).length > 3 := by
            simp [List.length]
          show ∃ e,
            (if (a1 :: a2 :: a3 :: a4 :: l4).length > 3 then
              (Except.error "too many values to unpack" :
                Except String (String × String × String))
            else
              Except.error ("need more than " ++
                Nat.repr (a1 :: a2 :: a3 :: a4 :: l4).length ++
                " values to unpack")) = Except.error e
          rw [if_pos hlen]
          exact ⟨_, rfl⟩

theorem processKey_error_of_splitKey {t : Summaries} {md : MachineData}
    {k : String} (h : ∃ e, splitKey k = Except.error e) :
    ∃ e2, processKey t md k = Except.error e2 := by
  obtain ⟨e, he⟩ := h
  unfold processKey
  rw [he]
  exact ⟨e, rfl⟩

theorem process_keys_error_of_mem (md : MachineData) :
    ∀ (ks : List String) (t : Summaries),
      (∃ k ∈ ks, (splitOnChar k ':').length ≠ 3) →
      ∃ e, process_keys t md ks = Except.error e := by
  intro ks
  induction ks with
  | nil =>
    intro t h
    simp at h
  | cons k rest ih =>
    intro t h
    unfold process_keys
    cases hpk : processKey t md k with
    | error e => exact ⟨e, rfl⟩
    | ok t1 =>
      obtain ⟨k0, hk0, hbad⟩ := h
      cases List.mem_cons.mp hk0 with
      | inl heq =>
        subst heq
        obtain ⟨e2, he2⟩ := @processKey_error_of_splitKey t md k0
          (splitKey_error_of_parts hbad)
        rw [hpk] at he2
        exact Except.noConfusion he2
      | inr hmem => exact ih t1 ⟨k0, hmem, hbad⟩

theorem processMachine_error_of_bad_key {t : Summaries} {md : MachineData}
    (h : ∃ q ∈ md.all_outliers, (splitOnChar q.1 ':').length ≠ 3) :
    ∃ e, processMachine t md = Except.error e := by
  obtain ⟨q, hq, hbad⟩ := h
  unfold processMachine
  refine process_keys_error_of_mem md _ t ⟨q.1, ?_, hbad⟩
  rw [mem_sortStrings]
  exact List.mem_map.mpr ⟨q, hq, rfl⟩

theorem process_machines_error_of_bad_key :
    ∀ (ms : List (String × MachineData)) (t : Summaries),
      (∃ p ∈ ms, ∃ q ∈ p.2.all_outliers, (splitOnChar q.1 ':').length ≠ 3) →
      ∃ e, process_machines t ms = Except.error e := by
  intro ms
  induction ms with
  | nil =>
    intro t h
    simp at h
  | cons m rest ih =>
    intro t h
    unfold process_machines
    cases hpm : processMachine t m.2 with
    | error e => exact ⟨e, rfl⟩
    | ok t1 =>
      obtain ⟨p, hp, hbadp⟩ := h
      cases List.mem_cons.mp hp with
      | inl heq =>
        subst heq
        obtain ⟨e2, he2⟩ := @processMachine_error_of_bad_key t p.2 hbadp
        rw [hpm] at he2
        exact Except.noConfusion he2
      | inr hmem => exact ih t1 ⟨p, hmem, hbadp⟩

/-- C8 (amended): a measurement key that does not decompose into exactly
three colon-delimited components aborts the whole aggregation run — the
run returns an error and no document is produced for any window size — but
the unpacking error raised by the split does not name the offending key
(see claim_c8_counterexample). -/
theorem claim_c8_amended (dcts : List (String × MachineData))
    (h : ∃ p ∈ dcts, ∃ q ∈ p.2.all_outliers, (splitOnChar q.1 ':').length ≠ 3) :
    (∃ e, aggregate_summaries dcts = Except.error e) ∧
    ∀ ws : Option Int, ∃ e2, script_main dcts ws = Except.error e2 := by
  obtain ⟨e, he⟩ := process_machines_error_of_bad_key dcts
    (emptySummary, emptySummary, emptySummary) h
  have he2 : aggregate_summaries dcts = Except.error e := he
  refine ⟨⟨e, he2⟩, ?_⟩
  intro ws
  unfold script_main
  rw [he2]
  exact ⟨e, rfl⟩

/-- C8 (counterexample): the run aborts on the malformed key a:b:c:d, but
with the fixed Python unpacking message "too many values to unpack", which
does not name (or even contain) the offending key, against the claim that
the error names the key. -/
theorem claim_c8_counterexample :
    aggregate_summaries [("mc8", exMdC8)] =
      Except.error "too many values to unpack" ∧
    occursIn "a:b:c:d".data "too many values to unpack".data = false ∧
    ∀ ws : Option Int, script_main [("mc8", exMdC8)] ws =
      Except.error "too many values to unpack" := by
  refine ⟨rfl, by decide, ?_⟩
  intro ws
  rfl

/-- C8 (witness for the amended claim): the amended abort law applied to
the machine holding the malformed key a:b:c:d. -/
theorem claim_c8_witness :
    (∃ p ∈ [("mc8", exMdC8)], ∃ q ∈ p.2.all_outliers,
      (splitOnChar q.1 ':').length ≠ 3) ∧
    (∃ e, aggregate_summaries [("mc8", exMdC8)] = Except.error e) :=
  ⟨by decide, (claim_c8_amended [("mc8", exMdC8)] (by decide)).1⟩

/- ----------------------------------------------------------------- -/
/- Claim theorems: window-size mismatch aborts during loading (C1).  -/
/- ----------------------------------------------------------------- -/

theorem load_loop_mismatch (w0 : Int) :
    ∀ (rest : List MachineData) (dict : List (String × MachineData)),
      (∀ d ∈ rest, ∃ nm, machine_name_of d.uname = Except.ok nm) →
      (∃ d ∈ rest, d.window_size ≠ w0) →
      load_loop (some w0) dict rest = Except.error mismatchMsg := by
  intro rest
  induction rest with
  | nil =>
    intro dict _ h
    simp at h
  | cons d tail ih =>
    intro dict hnames hmm2
    obtain ⟨nm, hnm⟩ := hnames d (List.mem_cons_self d tail)
    simp only [load_loop, hnm]
    by_cases hw : w0 = d.window_size
    · rw [if_pos hw]
      obtain ⟨d2, hd2, hne⟩ := hmm2
      cases List.mem_cons.mp hd2 with
      | inl heq =>
        subst heq
        exact absurd hw.symm hne
      | inr htail =>
        exact ih _ (fun d3 hd3 => hnames d3 (List.mem_cons_of_mem d hd3))
          ⟨d2, htail, hne⟩
    · rw [if_neg hw]

/-- C1 (amended): when two loaded Result Sets declare different window
sizes, the run fails eagerly while loading — get_data_dictionaries itself
returns the assert message, aggregation never runs, the whole pipeline
returns the same error, and no document text is produced — but the fixed
assert message does not identify the conflicting window-size value (see
claim_c1_counterexample). -/
theorem claim_c1_amended (datas : List MachineData) (d0 : MachineData)
    (rest : List MachineData) (hshape : datas = d0 :: rest)
    (hnames : ∀ d ∈ datas, ∃ nm, machine_name_of d.uname = Except.ok nm)
    (hmm2 : ∃ d ∈ datas, d.window_size ≠ d0.window_size) :
    get_data_dictionaries datas = Except.error mismatchMsg ∧
    run_pipeline datas = Except.error mismatchMsg := by
  subst hshape
  obtain ⟨nm0, hnm0⟩ := hnames d0 (List.mem_cons_self d0 rest)
  have hload : get_data_dictionaries (d0 :: rest) = Except.error mismatchMsg := by
    unfold get_data_dictionaries
    simp only [load_loop, hnm0]
    apply load_loop_mismatch
    · intro d hd
      exact hnames d (List.mem_cons_of_mem d0 hd)
    · obtain ⟨d, hd, hne⟩ := hmm2
      cases List.mem_cons.mp hd with
      | inl heq =>
        subst heq
        exact absurd rfl hne
      | inr htail => exact ⟨d, htail, hne⟩
  refine ⟨hload, ?_⟩
  unfold run_pipeline
  rw [hload]

/-- C1 (counterexample): loading two files with window sizes five and
seven aborts with the fixed assert message, which contains no digit at all
and in particular neither conflicting value, against the claim that the
error identifies the conflicting value. -/
theorem claim_c1_counterexample :
    run_pipeline [exMdW5, exMdW7] = Except.error mismatchMsg ∧
    occursIn (Int.repr 7).data mismatchMsg.data = false ∧
    occursIn (Int.repr 5).data mismatchMsg.data = false ∧
    ∀ ch ∈ mismatchMsg.data, ¬ch.isDigit := by
  refine ⟨rfl, by decide, by decide, by decide⟩

/-- C1 (witness for the amended claim): the amended eager-failure law
applied to the two concrete files with window sizes five and seven. -/
theorem claim_c1_witness :
    get_data_dictionaries [exMdW5, exMdW7] = Except.error mismatchMsg ∧
    run_pipeline [exMdW5, exMdW7] = Except.error mismatchMsg :=
  claim_c1_amended [exMdW5, exMdW7] exMdW5 [exMdW7] rfl
    (by
      intro d hd
      cases hd with
      | head => exact ⟨"mone", rfl⟩
      | tail _ h2 =>
        cases h2 with
        | head => exact ⟨"mtwo", rfl⟩
        | tail _ h3 => cases h3)
    ⟨exMdW7, by decide, by decide⟩

/- ----------------------------------------------------------------- -/
/- Claim theorems: the distribution encoder (C5, C6, C7).            -/
/- ----------------------------------------------------------------- -/

theorem dataMin_mem : ∀ (l : List ℚ), l ≠ [] → dataMin l ∈ l := by
  intro l
  induction l with
  | nil => intro h; exact absurd rfl h
  | cons x xs ih =>
    intro _
    cases xs with
    | nil => simp [dataMin]
    | cons y r =>
      simp only [dataMin]
      rcases le_total x (dataMin (y :: r)) with h | h
      · rw [min_eq_left h]
        exact List.mem_cons_self x (y :: r)
      · rw [min_eq_right h]
        exact List.mem_cons_of_mem x (ih (by simp))

theorem dataMin_le : ∀ (l : List ℚ) (x : ℚ), x ∈ l → dataMin l ≤ x := by
  intro l
  induction l with
  | nil => intro x hx; cases hx
  | cons a xs ih =>
    intro x hx
    cases xs with
    | nil =>
      cases hx with
      | head => simp [dataMin]
      | tail _ h => cases h
    | cons y r =>
      simp only [dataMin]
      cases hx with
      | head => exact min_le_left _ _
      | tail _ h => exact le_trans (min_le_right _ _) (ih x h)

theorem dataMax_mem : ∀ (l : List ℚ), l ≠ [] → dataMax l ∈ l := by
  intro l
  induction l with
  | nil => intro h; exact absurd rfl h
  | cons x xs ih =>
    intro _
    cases xs with
    | nil => simp [dataMax]
    | cons y r =>
      simp only [dataMax]
      rcases le_total x (dataMax (y :: r)) with h | h
      · rw [max_eq_right h]
        exact List.mem_cons_of_mem x (ih (by simp))
      · rw [max_eq_left h]
        exact List.mem_cons_self x (y :: r)

theorem le_dataMax : ∀ (l : List ℚ) (x : ℚ), x ∈ l → x ≤ dataMax l := by
  intro l
  induction l with
  | nil => intro x hx; cases hx
  | cons a xs ih =>
    intro x hx
    cases xs with
    | nil =>
      cases hx with
      | head => simp [dataMax]
      | tail _ h => cases h
    | cons y r =>
      simp only [dataMax]
      cases hx with
      | head => exact le_max_left _ _
      | tail _ h => exact le_trans (ih x h) (le_max_right _ _)

theorem dataMin_perm {l1 l2 : List ℚ} (hp : l1.Perm l2) :
    dataMin l1 = dataMin l2 := by
  by_cases h1 : l1 = []
  · subst h1
    rw [List.Perm.eq_nil hp.symm]
  · have h2 : l2 ≠ [] := fun he => h1 (List.Perm.eq_nil (he ▸ hp))
    apply le_antisymm
    · exact dataMin_le l1 _ (hp.mem_iff.mpr (dataMin_mem l2 h2))
    · exact dataMin_le l2 _ (hp.mem_iff.mp (dataMin_mem l1 h1))

theorem dataMax_perm {l1 l2 : List ℚ} (hp : l1.Perm l2) :
    dataMax l1 = dataMax l2 := by
  by_cases h1 : l1 = []
  · subst h1
    rw [List.Perm.eq_nil hp.symm]
  · have h2 : l2 ≠ [] := fun he => h1 (List.Perm.eq_nil (he ▸ hp))
    apply le_antisymm
    · exact le_dataMax l2 _ (hp.mem_iff.mp (dataMax_mem l1 h1))
    · exact le_dataMax l1 _ (hp.mem_iff.mpr (dataMax_mem l2 h2))

theorem histCounts_perm {l1 l2 : List ℚ} (hp : l1.Perm l2) :
    histCounts l1 = histCounts l2 := by
  have hr : histRange l1 = histRange l2 := by
    unfold histRange
    rw [dataMin_perm hp, dataMax_perm hp]
  unfold histCounts
  rw [hr]
  have : (fun i => l1.countP
      (fun v => bucketIndex (histRange l2).1 (histRange l2).2 v == i)) =
    (fun i => l2.countP
      (fun v => bucketIndex (histRange l2).1 (histRange l2).2 v == i)) :=
    funext fun i => hp.countP_eq _
  rw [this]

/-- C7: the distribution encoding depends only on the multiset of values:
any permutation of the input array yields the same normalized histogram and
the same median bucket index. -/
theorem claim_c7_perm_stable (l1 l2 : List ℚ) (hp : l1.Perm l2) :
    normedHist l1 = normedHist l2 ∧ median_bin_index l1 = median_bin_index l2 := by
  have hc := histCounts_perm hp
  constructor
  · unfold normedHist
    rw [hc]
  · unfold median_bin_index median_index
    rw [hc, hp.length_eq]

/-- C7 (witness): the permutation law applied to a concrete array and a
concrete permutation of it. -/
theorem claim_c7_witness :
    normedHist [(1 : ℚ), 2, 3] = normedHist [3, 1, 2] ∧
    median_bin_index [(1 : ℚ), 2, 3] = median_bin_index [3, 1, 2] :=
  claim_c7_perm_stable [(1 : ℚ), 2, 3] [3, 1, 2] (by decide)

theorem sum_map_add (g h : Nat → Nat) (l : List Nat) :
    (l.map (fun i => g i + h i)).sum = (l.map g).sum + (l.map h).sum := by
  induction l with
  | nil => rfl
  | cons a as ih =>
    simp only [List.map_cons, List.sum_cons, ih]
    omega

theorem sum_indicator_range (fx : Nat) :
    ∀ n : Nat, ((List.range n).map (fun i => if fx == i then 1 else 0)).sum =
      if fx < n then 1 else 0 := by
  intro n
  induction n with
  | zero => simp
  | succ m ih =>
    rw [List.range_succ, List.map_append, List.sum_append, ih]
    simp only [List.map_cons, List.map_nil, List.sum_cons, List.sum_nil,
      Nat.add_zero]
    by_cases h2 : fx = m
    · subst h2
      rw [if_neg (Nat.lt_irrefl fx), if_pos (Nat.lt_succ_self fx)]
      simp
    · have hne : (fx == m) = false := by simp [h2]
      rw [hne]
      by_cases h1 : fx < m
      · rw [if_pos h1, if_pos (Nat.lt_succ_of_lt h1)]
        simp
      · rw [if_neg h1, if_neg (show ¬fx < m + 1 by omega)]
        simp

theorem countP_range_sum (f : ℚ → Nat) (n : Nat) :
    ∀ (l : List ℚ), (∀ x ∈ l, f x < n) →
      ((List.range n).map (fun i => l.countP (fun v => f v == i))).sum = l.length := by
  intro l
  induction l with
  | nil => intro _; simp
  | cons x xs ih =>
    intro hf
    simp only [List.countP_cons]
    rw [sum_map_add (fun i => xs.countP (fun v => f v == i))
      (fun i => if f x == i then 1 else 0)]
    rw [ih (fun y hy => hf y (List.mem_cons_of_mem x hy)), sum_indicator_range]
    rw [if_pos (hf x (List.mem_cons_self x xs))]
    simp

theorem bucketIndex_lt (lo hi v : ℚ) : bucketIndex lo hi v < 10 := by
  unfold bucketIndex
  have : min 9 (Int.toNat ⌊(v - lo) * 10 / (hi - lo)⌋) ≤ 9 := Nat.min_le_left _ _
  omega

theorem histCounts_sum (data : List ℚ) : (histCounts data).sum = data.length := by
  unfold histCounts
  exact countP_range_sum _ 10 data (fun x _ => bucketIndex_lt _ _ x)

theorem sum_map_div (t : ℚ) : ∀ (l : List Nat),
    (l.map (fun c : Nat => (c : ℚ) / t)).sum = (l.map (fun c : Nat => (c : ℚ))).sum / t := by
  intro l
  induction l with
  | nil => simp
  | cons a as ih =>
    simp only [List.map_cons, List.sum_cons, ih]
    rw [add_div]

theorem dataMin_le_dataMax (data : List ℚ) (hne : data ≠ []) :
    dataMin data ≤ dataMax data :=
  le_dataMax data _ (dataMin_mem data hne)

theorem histRange_lt (data : List ℚ) (hne : data ≠ []) :
    (histRange data).1 < (histRange data).2 := by
  unfold histRange
  by_cases hc : dataMin data = dataMax data
  · rw [if_pos hc]
    simp only []
    linarith
  · rw [if_neg hc]
    exact lt_of_le_of_ne (dataMin_le_dataMax data hne) hc

theorem edge_le_iff {t : ℚ} (ht : 0 < t) (lo v a : ℚ) :
    lo + t * a / 10 ≤ v ↔ a ≤ (v - lo) * 10 / t := by
  rw [le_div_iff ht]
  constructor <;> intro h <;> nlinarith

theorem lt_edge_iff {t : ℚ} (ht : 0 < t) (lo v b : ℚ) :
    v < lo + t * b / 10 ↔ (v - lo) * 10 / t < b := by
  rw [div_lt_iff ht]
  constructor <;> intro h <;> nlinarith

theorem bucket_contains (lo hi v : ℚ) (hw : lo < hi) (hlo : lo ≤ v)
    (hhi : v ≤ hi) :
    lo + (hi - lo) * ((bucketIndex lo hi v : Nat) : ℚ) / 10 ≤ v ∧
    (v < lo + (hi - lo) * (((bucketIndex lo hi v : Nat) : ℚ) + 1) / 10 ∨
     (bucketIndex lo hi v = 9 ∧ v ≤ hi)) := by
  have ht : 0 < hi - lo := sub_pos.mpr hw
  have hx0 : 0 ≤ (v - lo) * 10 / (hi - lo) :=
    div_nonneg (by nlinarith) (le_of_lt ht)
  have hj0 : 0 ≤ ⌊(v - lo) * 10 / (hi - lo)⌋ := Int.floor_nonneg.mpr hx0
  have hfle : ((⌊(v - lo) * 10 / (hi - lo)⌋ : ℤ) : ℚ) ≤
      (v - lo) * 10 / (hi - lo) := Int.floor_le _
  have hflt : (v - lo) * 10 / (hi - lo) <
      ((⌊(v - lo) * 10 / (hi - lo)⌋ : ℤ) : ℚ) + 1 := Int.lt_floor_add_one _
  have hcast : ((Int.toNat ⌊(v - lo) * 10 / (hi - lo)⌋ : Nat) : ℚ) =
      ((⌊(v - lo) * 10 / (hi - lo)⌋ : ℤ) : ℚ) := by
    exact_mod_cast Int.toNat_of_nonneg hj0
  by_cases hc : 9 ≤ Int.toNat ⌊(v - lo) * 10 / (hi - lo)⌋
  · have hb : bucketIndex lo hi v = 9 := by
      unfold bucketIndex
      exact min_eq_left hc
    have h9 : (9 : ℚ) ≤ (v - lo) * 10 / (hi - lo) := by
      refine le_trans ?_ hfle
      rw [← hcast]
      exact_mod_cast hc
    refine ⟨?_, Or.inr ⟨hb, hhi⟩⟩
    rw [hb]
    exact (edge_le_iff ht lo v 9).mpr (by exact_mod_cast h9)
  · have hle9 : Int.toNat ⌊(v - lo) * 10 / (hi - lo)⌋ ≤ 9 := by omega
    have hb : bucketIndex lo hi v = Int.toNat ⌊(v - lo) * 10 / (hi - lo)⌋ := by
      unfold bucketIndex
      exact min_eq_right hle9
    rw [hb]
    constructor
    · exact (edge_le_iff ht lo v _).mpr (by rw [hcast]; exact hfle)
    · left
      exact (lt_edge_iff ht lo v _).mpr (by rw [hcast]; exact hflt)

/-- C5: for every non-empty sequence of measurement values the encoder
produces exactly ten buckets whose normalized values sum to exactly one
(hence within any tolerance); the bucket range spans from the minimum to
the maximum of the values whenever they differ; every value lies inside
that range; the ten buckets are equal-width (consecutive bin edges always
differ by one tenth of the range, whose endpoints are the first and last
edges); every value falls into the bucket whose edge interval contains it,
the last bucket being closed on the right; and nothing divides by zero —
the single-valued degenerate case is covered because the only hypothesis
is non-emptiness (numpy widens the range by one half on each side
there). -/
theorem claim_c5_histogram (data : List ℚ) (hne : data ≠ []) :
    (normedHist data).length = 10 ∧
    (normedHist data).sum = 1 ∧
    (dataMin data < dataMax data →
      histRange data = (dataMin data, dataMax data)) ∧
    (∀ x ∈ data, (histRange data).1 ≤ x ∧ x ≤ (histRange data).2) ∧
    binEdge data 0 = (histRange data).1 ∧
    binEdge data 10 = (histRange data).2 ∧
    (∀ i : Nat, binEdge data (i + 1) - binEdge data i =
      ((histRange data).2 - (histRange data).1) / 10) ∧
    (∀ x ∈ data,
      binEdge data (bucketIndex (histRange data).1 (histRange data).2 x) ≤ x ∧
      (x < binEdge data
          (bucketIndex (histRange data).1 (histRange data).2 x + 1) ∨
       (bucketIndex (histRange data).1 (histRange data).2 x = 9 ∧
        x ≤ (histRange data).2))) := by
  have hlen0 : data.length ≠ 0 := by
    cases data with
    | nil => exact absurd rfl hne
    | cons a as => simp
  have hbounds : ∀ x ∈ data, (histRange data).1 ≤ x ∧ x ≤ (histRange data).2 := by
    intro x hx
    unfold histRange
    have h1 := dataMin_le data x hx
    have h2 := le_dataMax data x hx
    by_cases hc : dataMin data = dataMax data
    · rw [if_pos hc]
      constructor
      · simp only []
        linarith
      · simp only []
        linarith
    · rw [if_neg hc]
      exact ⟨h1, h2⟩
  refine ⟨?_, ?_, ?_, hbounds, ?_, ?_, ?_, ?_⟩
  · have h1 : (normedHist data).length = (histCounts data).length := by
      unfold normedHist
      rw [List.length_map]
    rw [h1]
    unfold histCounts
    rw [List.length_map, List.length_range]
  · unfold normedHist
    rw [sum_map_div, ← Nat.cast_list_sum, histCounts_sum]
    exact div_self (by exact_mod_cast hlen0)
  · intro hlt
    unfold histRange
    rw [if_neg (ne_of_lt hlt)]
  · unfold binEdge
    push_cast
    ring
  · unfold binEdge
    push_cast
    ring
  · intro i
    unfold binEdge
    push_cast
    ring
  · intro x hx
    obtain ⟨hlo, hhi⟩ := hbounds x hx
    have hw := histRange_lt data hne
    have h := bucket_contains (histRange data).1 (histRange data).2 x hw hlo hhi
    unfold binEdge
    refine ⟨h.1, ?_⟩
    cases h.2 with
    | inl h2 =>
      left
      push_cast
      push_cast at h2
      exact h2
    | inr h2 => exact Or.inr h2

/-- C5 (witness): the histogram law applied to the degenerate-looking
array of the specification example, nine ones and a ten. -/
theorem claim_c5_witness :
    (normedHist [(1 : ℚ), 1, 1, 1, 1, 1, 1, 1, 1, 10]).length = 10 ∧
    (normedHist [(1 : ℚ), 1, 1, 1, 1, 1, 1, 1, 1, 10]).sum = 1 := by
  have h := claim_c5_histogram [(1 : ℚ), 1, 1, 1, 1, 1, 1, 1, 1, 10] (by decide)
  exact ⟨h.1, h.2.1⟩

theorem medianLoop_spec (m : Nat) :
    ∀ (bs : List Nat) (cum idx : Nat), bs ≠ [] → m ≤ cum + bs.sum →
      ∃ jj, jj < bs.length ∧ medianLoop m bs cum idx = some (idx + jj) ∧
        m ≤ cum + (bs.take (jj + 1)).sum ∧
        ∀ i < jj, cum + (bs.take (i + 1)).sum < m := by
  intro bs
  induction bs with
  | nil => intro cum idx h; exact absurd rfl h
  | cons b rest ih =>
    intro cum idx _ htot
    unfold medianLoop
    by_cases hc : m ≤ cum + b
    · rw [if_pos hc]
      refine ⟨0, Nat.succ_pos _, by rw [Nat.add_zero], ?_, ?_⟩
      · simpa using hc
      · intro i hi
        exact absurd hi (Nat.not_lt_zero i)
    · rw [if_neg hc]
      have hcb : cum + b < m := Nat.lt_of_not_le hc
      have hrest : rest ≠ [] := by
        intro he
        subst he
        simp at htot
        omega
      have htot2 : m ≤ (cum + b) + rest.sum := by
        simp only [List.sum_cons] at htot
        omega
      obtain ⟨jj, hl, heq, hge, hlt⟩ := ih (cum + b) (idx + 1) hrest htot2
      refine ⟨jj + 1, by simpa using Nat.succ_lt_succ hl, ?_, ?_, ?_⟩
      · rw [heq]
        congr 1
        omega
      · rw [List.take_succ_cons, List.sum_cons]
        omega
      · intro i hi
        cases i with
        | zero =>
          rw [List.take_succ_cons, List.take_zero, List.sum_cons, List.sum_nil]
          omega
        | succ i2 =>
          have h3 := hlt i2 (by omega)
          rw [List.take_succ_cons, List.sum_cons]
          omega

/-- C6: for every non-empty sequence of values the median bucket index is
the smallest bucket index at which the cumulative sum of raw bucket counts,
accumulated in bucket order, first reaches or exceeds the floor of half the
number of values — the loop always terminates with some index, the running
total through that bucket meets the threshold with the or-equal comparison,
and every earlier prefix stays strictly below it. -/
theorem claim_c6_median_bucket (data : List ℚ) (hne : data ≠ []) :
    ∃ j, median_bin_index data = some j ∧
      median_index data ≤ ((histCounts data).take (j + 1)).sum ∧
      ∀ i < j, ((histCounts data).take (i + 1)).sum < median_index data := by
  have hlen : (histCounts data).length = 10 := by
    unfold histCounts
    rw [List.length_map, List.length_range]
  have hne2 : histCounts data ≠ [] := by
    intro h
    rw [h] at hlen
    simp at hlen
  have htot : median_index data ≤ 0 + (histCounts data).sum := by
    rw [histCounts_sum, Nat.zero_add]
    unfold median_index
    exact Nat.div_le_self _ _
  obtain ⟨jj, hl, heq, hge, hlt⟩ :=
    medianLoop_spec (median_index data) (histCounts data) 0 0 hne2 htot
  rw [Nat.zero_add] at heq
  refine ⟨jj, ?_, ?_, ?_⟩
  · unfold median_bin_index
    exact heq
  · simpa using hge
  · intro i hi
    simpa using hlt i hi

/-- C6 (witness): the median-bucket law applied to a concrete array. -/
theorem claim_c6_witness :
    ∃ j, median_bin_index [(1 : ℚ), 2, 3] = some j ∧
      median_index [(1 : ℚ), 2, 3] ≤
        ((histCounts [(1 : ℚ), 2, 3]).take (j + 1)).sum ∧
      ∀ i < j, ((histCounts [(1 : ℚ), 2, 3]).take (i + 1)).sum <
        median_index [(1 : ℚ), 2, 3] :=
  claim_c6_median_bucket [(1 : ℚ), 2, 3] (by decide)

/- ----------------------------------------------------------------- -/
/- Claim theorem: renderer label escaping (C9).                      -/
/- ----------------------------------------------------------------- -/

theorem tex_escape_chars_eq_escapedOnce :
    ∀ l : List Char, tex_escape_chars l = escapedOnce l := by
  intro l
  induction l with
  | nil => rfl
  | cons c cs ih =>
    by_cases hc : c = '_'
    · simp [tex_escape_chars, hc, escapedOnce, escapeChar, ih]
    · simp [tex_escape_chars, hc, escapedOnce, escapeChar, ih]

theorem tex_escape_chars_id :
    ∀ l : List Char, (∀ c ∈ l, c ≠ '_') → tex_escape_chars l = l := by
  intro l
  induction l with
  | nil => intro _; rfl
  | cons c cs ih =>
    intro h
    unfold tex_escape_chars
    rw [if_neg (h c (List.mem_cons_self c cs))]
    rw [ih (fun c2 hc2 => h c2 (List.mem_cons_of_mem c hc2))]

/-- C9 (counterexample): the claim that every character with special
meaning in the target format is escaped is false: the ampersand is a
LaTeX-special character (it is even the column separator of the very
tables being written), yet the renderer passes the label a&b through
unchanged — the row text carries the raw ampersand and no escaped form of
it — while the underscore in a_b does get escaped, showing the escape
covers only the underscore. -/
theorem claim_c9_counterexample :
    latexSpecial '&' = true ∧
    tex_escape "a&b" = "a&b" ∧
    occursIn ['\\', '&'] (tex_escape "a&b").data = false ∧
    rowsFor [("a&b", 2)] = "a&b & 2 \\\\ \n" ∧
    latexSpecial '_' = true ∧
    tex_escape "a_b" = "a\\_b" := by
  refine ⟨by decide, by decide, by decide, by decide, by decide, by decide⟩

/-- C9 (amended): the report renderer escapes only the underscore, and
does so exactly once per label: every rendered row label equals the
original name with each underscore replaced by backslash underscore, the
escape function is exactly this characterwise single replacement (so
repeated rendering can never double-escape), every character other than
the underscore is left as itself by the replacement, and a label without
underscores — whatever other LaTeX-special characters it holds — is
written through verbatim. -/
theorem claim_c9_amended :
    (∀ m : List (String × Nat), rowsFor m = String.join (m.map (fun p =>
      String.mk (escapedOnce p.1.data) ++ " & " ++ Nat.repr p.2 ++ " \\\\ \n"))) ∧
    (∀ s : String, tex_escape s = String.mk (escapedOnce s.data)) ∧
    (∀ c : Char, c ≠ '_' → escapeChar c = [c]) ∧
    (∀ s : String, (∀ c ∈ s.data, c ≠ '_') → tex_escape s = s) := by
  refine ⟨?_, ?_, ?_, ?_⟩
  · intro m
    unfold rowsFor
    have hfun : (fun p : String × Nat =>
        tex_escape p.1 ++ " & " ++ Nat.repr p.2 ++ " \\\\ \n") =
      (fun p : String × Nat =>
        String.mk (escapedOnce p.1.data) ++ " & " ++ Nat.repr p.2 ++ " \\\\ \n") := by
      funext p
      rw [tex_escape, tex_escape_chars_eq_escapedOnce]
    rw [hfun]
  · intro s
    rw [tex_escape, tex_escape_chars_eq_escapedOnce]
  · intro c hc
    unfold escapeChar
    rw [if_neg hc]
  · intro s hs
    cases s with
    | mk d =>
      rw [tex_escape, tex_escape_chars_id d hs]

/-- C9 (witness for the amended claim): the amended underscore-only law
applied to a concrete LaTeX-special character and to a concrete
underscore-free label holding a percent sign. -/
theorem claim_c9_amended_witness :
    escapeChar '&' = ['&'] ∧ tex_escape "x%y" = "x%y" :=
  ⟨claim_c9_amended.2.2.1 '&' (by decide),
   claim_c9_amended.2.2.2 "x%y" (by decide)⟩
